import Mathlib

/-!
# veles — `kaitai::ElfParser`

A shallow embedding of `include/kaitai/elf_parser.h`.

`ElfParser::parse` is a `try` block of five calls into code that lives in
other translation units (`kaitai::kstream`, `kaitai::elf::elf_t` and its three
table accessors), followed by an empty `catch(std::exception)` handler.  The
five callees are taken as parameters (`Collaborators`); each one is a total
function from the state it may touch to an `Outcome`: normal completion with a
value, or an exception in flight.  Scope exit (destruction of the two locals)
is taken not to touch the chunk store.
-/

namespace veles

namespace dbif

/-- Handle to an object of the store (`dbif::ObjectHandle`); the
default-constructed handle refers to no object. -/
structure ObjectHandle where
  target : Option Nat
  deriving DecidableEq, Repr

/-- The default-constructed handle `dbif::ObjectHandle()`. -/
def ObjectHandle.none : ObjectHandle := ⟨Option.none⟩

end dbif

open dbif

/-- A C++ exception in flight.  The handler of `parse` discriminates on the
static type only: `std::exception` (or a class derived from it) against
everything else. -/
inductive Thrown where
  | std_exception (what : String)
  | foreign (what : String)
  deriving DecidableEq, Repr

/-- Whether `catch(std::exception)` matches the exception. -/
def Thrown.isStd : Thrown → Bool
  | .std_exception _ => true
  | .foreign _ => false

/-- Result of running a piece of code from a state: the state reached, and
either the value of a normal completion or the exception that left it. -/
inductive Outcome (σ α : Type) where
  | normal (s : σ) (a : α)
  | thrown (s : σ) (e : Thrown)
  deriving DecidableEq, Repr

/-- The state in which a piece of code left the machine, however it ended. -/
def Outcome.state {σ α : Type} : Outcome σ α → σ
  | .normal s _ => s
  | .thrown s _ => s

/-- The callees of `parse`, none of which is defined in the header.
`σ` is everything they can read or write (the chunk store, the blobs),
`κ` is a `kaitai::kstream`, `ε` a `kaitai::elf::elf_t`. -/
structure Collaborators (σ κ ε : Type) where
  /-- `kaitai::kstream(blob, start, parent_chunk)` -/
  kstream : ObjectHandle → Nat → ObjectHandle → σ → Outcome σ κ
  /-- `kaitai::elf::elf_t(&stream)`: reads the header. -/
  elf_t : κ → σ → Outcome σ ε
  /-- `parser.program_headers()` -/
  program_headers : ε → σ → Outcome σ ε
  /-- `parser.section_headers()` -/
  section_headers : ε → σ → Outcome σ ε
  /-- `parser.strings()` -/
  strings : ε → σ → Outcome σ ε

/-- A call made by `parse`, with the arguments it is made with: for the three
accessors, the decoder object they are called on. -/
inductive Call (κ ε : Type) where
  | kstream (blob : ObjectHandle) (start : Nat) (parent_chunk : ObjectHandle)
  | elf_t (stream : κ)
  | program_headers (parser : ε)
  | section_headers (parser : ε)
  | strings (parser : ε)
  deriving DecidableEq, Repr

/-- One entry of the call log: the call and whether it completed normally. -/
structure Event (κ ε : Type) where
  call : Call κ ε
  ok : Bool
  deriving DecidableEq, Repr

/-- The decoding phases of the ELF decoder. -/
inductive Phase where
  | Header
  | ProgramHeaders
  | SectionHeaders
  | Strings
  deriving DecidableEq, Repr

/-- The fixed order of the phases. -/
def Phase.sequence : List Phase :=
  [.Header, .ProgramHeaders, .SectionHeaders, .Strings]

/-- The phase a call belongs to: constructing `elf_t` is the header phase, the
three accessors are the other three; opening the stream is not a phase. -/
def Call.phase {κ ε : Type} : Call κ ε → Option Phase
  | .kstream _ _ _ => none
  | .elf_t _ => some .Header
  | .program_headers _ => some .ProgramHeaders
  | .section_headers _ => some .SectionHeaders
  | .strings _ => some .Strings

namespace parser

/-- Modelled from the spec: the base class `parser::Parser` (`parser/parser.h`
is not among the sources).  It keeps the format identifier handed to its
constructor; the registry maps that string to the decoder. -/
structure Parser where
  id : String
  deriving DecidableEq, Repr

/-- Modelled from the spec: lookup of a decoder by format name (the registry is
not among the sources): the decoder answers to the name equal to its
identifier. -/
def Parser.answersTo (p : Parser) (name : String) : Bool :=
  p.id == name

end parser

namespace kaitai

/-- `class ElfParser : public parser::Parser` — no members of its own. -/
structure ElfParser extends parser.Parser where
  deriving DecidableEq, Repr

/-- `ElfParser() : parser::Parser("elf (ksy)") {}` -/
def ElfParser.new : ElfParser :=
  { toParser := ⟨"elf (ksy)"⟩ }

/-- What a running `parse` can touch: the object it is called on, the state of
the collaborators, and the log of calls made so far. -/
structure Machine (σ κ ε : Type) where
  this : ElfParser
  store : σ
  log : List (Event κ ε)
  deriving DecidableEq, Repr

/-- Code that runs on a `Machine` and completes normally or throws. -/
def Exec (σ κ ε α : Type) : Type :=
  Machine σ κ ε → Outcome (Machine σ κ ε) α

/-- Sequencing: the continuation runs only after a normal completion. -/
def Exec.bind {σ κ ε α β : Type} (x : Exec σ κ ε α) (f : α → Exec σ κ ε β) :
    Exec σ κ ε β :=
  fun m =>
    match x m with
    | .normal m1 a => f a m1
    | .thrown m1 e => .thrown m1 e

instance {σ κ ε : Type} : Monad (Exec σ κ ε) where
  pure a := fun m => .normal m a
  bind := Exec.bind

/-- Make one call to a collaborator: it runs on the store, and the call is
logged with its result. -/
def invoke {σ κ ε α : Type} (call : Call κ ε) (step : σ → Outcome σ α) : Exec σ κ ε α :=
  fun m =>
    match step m.store with
    | .normal s a => .normal { m with store := s, log := m.log ++ [⟨call, true⟩] } a
    | .thrown s e => .thrown { m with store := s, log := m.log ++ [⟨call, false⟩] } e

/-- The body of the `try` block of `ElfParser::parse`. -/
def ElfParser.tryBody {σ κ ε : Type} (c : Collaborators σ κ ε)
    (blob : ObjectHandle) (start : Nat) (parent_chunk : ObjectHandle) : Exec σ κ ε Unit := do
  let stream ← invoke (.kstream blob start parent_chunk) (c.kstream blob start parent_chunk)
  let parser ← invoke (.elf_t stream) (c.elf_t stream)
  let parser1 ← invoke (.program_headers parser) (c.program_headers parser)
  let parser2 ← invoke (.section_headers parser1) (c.section_headers parser1)
  let _ ← invoke (.strings parser2) (c.strings parser2)
  pure ()

/-- The handler `catch(std::exception) {}` around a body: an exception that is
a `std::exception` ends there and the function completes normally; any other
exception keeps propagating. -/
def catchStdException {σ κ ε : Type} (body : Exec σ κ ε Unit) : Exec σ κ ε Unit :=
  fun m =>
    match body m with
    | .normal m1 u => .normal m1 u
    | .thrown m1 e => if e.isStd then .normal m1 () else .thrown m1 e

/-- `void ElfParser::parse(const dbif::ObjectHandle& blob, uint64_t start = 0,
const dbif::ObjectHandle& parent_chunk = dbif::ObjectHandle())`.  The start
offset is handed on as it is, no arithmetic is done on it, so it is a plain
natural number here. -/
def ElfParser.parse {σ κ ε : Type} (c : Collaborators σ κ ε)
    (blob : ObjectHandle) (start : Nat := 0)
    (parent_chunk : ObjectHandle := ObjectHandle.none) : Exec σ κ ε Unit :=
  catchStdException (ElfParser.tryBody c blob start parent_chunk)

/-- What the caller of `parse` has in hand afterwards: the store and the way
the call ended.  The call log is bookkeeping of the model and the parser object
has no members of its own. -/
def callerView {σ κ ε α : Type} : Outcome (Machine σ κ ε) α → Outcome σ α
  | .normal m a => .normal m.store a
  | .thrown m e => .thrown m.store e

/-- The phases of a call log, in the order of invocation, each with whether it
succeeded. -/
def phaseLog {κ ε : Type} (log : List (Event κ ε)) : List (Phase × Bool) :=
  log.filterMap fun ev => ev.call.phase.map fun ph => (ph, ev.ok)

/-- Keep a sequence of phases up to and including the first that fails. -/
def cutAfterFirstFailure : List (Phase × Bool) → List (Phase × Bool)
  | [] => []
  | (ph, true) :: rest => (ph, true) :: cutAfterFirstFailure rest
  | (ph, false) :: _ => [(ph, false)]

/-- The invoked phases are the fixed sequence, cut off right after the first
phase that fails (for some assignment of success or failure to the phases). -/
def FixedSequenceCut (l : List (Phase × Bool)) : Prop :=
  ∃ succeeds : Phase → Bool,
    l = cutAfterFirstFailure (Phase.sequence.map fun ph => (ph, succeeds ph))

/-- The calls that a run starting from machine `m` added to the log. -/
def newCalls {σ κ ε α : Type} (m : Machine σ κ ε) (o : Outcome (Machine σ κ ε) α) :
    List (Event κ ε) :=
  o.state.log.drop m.log.length

/-- A test double: every collaborator commits the chunks it is told to (by
name, onto a store that is the list of chunk names) and then completes or
throws as scripted. -/
structure Script where
  commits : List String
  raises : Option Thrown
  deriving DecidableEq, Repr

/-- Run one scripted step. -/
def Script.run {α : Type} (sc : Script) (a : α) (s : List String) : Outcome (List String) α :=
  match sc.raises with
  | none => .normal (s ++ sc.commits) a
  | some e => .thrown (s ++ sc.commits) e

/-- Collaborators that follow five scripts. -/
def scripted (open_ hdr ph sh str : Script) : Collaborators (List String) Unit Unit where
  kstream := fun _ _ _ => open_.run ()
  elf_t := fun _ => hdr.run ()
  program_headers := fun _ => ph.run ()
  section_headers := fun _ => sh.run ()
  strings := fun _ => str.run ()

/-- A machine about to run `parse` on a given store. -/
def Machine.fresh {σ κ ε : Type} (s : σ) : Machine σ κ ε :=
  { this := ElfParser.new, store := s, log := [] }

/-! ## The decoding engine behind the callees

`kaitai::kstream` and `kaitai::elf::elf_t` are not defined in the header.  What
follows models them from the specification: the stream (§4.1), the chunk (§3),
the chunk tree builder (§4.3), the three-phase ELF-style decoder (§4.4) and the
object store boundary (§6).  Field layouts are a parameter (`Layout`).  Reads
narrower than a byte are left out: no field here needs them.  Every failure of
the engine leaves it as a `std::exception`, which is what the specification
observes of the code (all failures end in the handler of `parse`).
-/

/-- Modelled from the spec: the error kinds of §7 (the engine is not among the
sources). -/
inductive ErrorKind where
  | OutOfBounds
  | MalformedField
  | UnsupportedVariant
  | CyclicReference
  deriving DecidableEq, Repr

/-- Modelled from the spec: a decoding failure, with the byte offset at which
decoding stopped (§7; the engine is not among the sources). -/
structure Failure where
  kind : ErrorKind
  offset : Nat
  deriving DecidableEq, Repr

/-- Modelled from the spec: the text of the exception that carries a failure
out of the engine (the exception classes are not among the sources). -/
def Failure.what (f : Failure) : String :=
  match f.kind with
  | .OutOfBounds => "OutOfBounds"
  | .MalformedField => "MalformedField"
  | .UnsupportedVariant => "UnsupportedVariant"
  | .CyclicReference => "CyclicReference"

/-- Modelled from the spec: byte order of `readUint` (§4.1). -/
inductive Endianness where
  | little
  | big
  deriving DecidableEq, Repr

/-- Modelled from the spec: a chunk (§3; the chunk classes are not among the
sources): a byte range `[start, stop)` of the blob, a type tag, a name, and the
ordered sequence of its child chunks.  The parent is the enclosing node. -/
inductive Chunk where
  | mk (start stop : Nat) (type name : String) (children : List Chunk)
  deriving Repr

/-- First byte of the chunk. -/
def Chunk.start : Chunk → Nat
  | .mk s _ _ _ _ => s

/-- One past the last byte of the chunk. -/
def Chunk.stop : Chunk → Nat
  | .mk _ e _ _ _ => e

/-- The child chunks, in the order of decoding. -/
def Chunk.children : Chunk → List Chunk
  | .mk _ _ _ _ cs => cs

/-- Two byte ranges overlap when they have a byte in common. -/
def rangesOverlap (a b : Nat × Nat) : Prop :=
  max a.1 b.1 < min a.2 b.2

instance (a b : Nat × Nat) : Decidable (rangesOverlap a b) := by
  unfold rangesOverlap; infer_instance

/-- The byte range of a chunk. -/
def Chunk.range (c : Chunk) : Nat × Nat :=
  (c.start, c.stop)

/-- Two chunks overlap when their ranges do. -/
def Chunk.overlaps (a b : Chunk) : Prop :=
  rangesOverlap a.range b.range

/-- A range lies within another. -/
def rangeWithin (a b : Nat × Nat) : Prop :=
  b.1 ≤ a.1 ∧ a.2 ≤ b.2

instance (a b : Nat × Nat) : Decidable (rangeWithin a b) := by
  unfold rangeWithin; infer_instance

/-- The containment and non-overlap invariant of a chunk tree (§3, §8): at every
node, each child's range lies within the node's range and no two children
overlap. -/
inductive Chunk.Invariant : Chunk → Prop where
  | node (start stop : Nat) (type name : String) (children : List Chunk)
      (contained : ∀ c ∈ children, rangeWithin c.range (start, stop))
      (disjoint : children.Pairwise fun a b => ¬ a.overlaps b)
      (below : ∀ c ∈ children, c.Invariant) :
      Chunk.Invariant (.mk start stop type name children)

/-- Modelled from the spec: the stream of §4.1 (`kaitai::kstream` is not among
the sources): a cursor `pos` over the bytes of a blob, bounded to `[lo, hi)`;
all three are offsets into the blob. -/
structure Stream where
  bytes : List Nat
  lo : Nat
  hi : Nat
  pos : Nat
  deriving DecidableEq, Repr

/-- Modelled from the spec: `position()`, relative to the start of the stream. -/
def Stream.position (s : Stream) : Nat :=
  s.pos - s.lo

/-- Modelled from the spec: `remaining()`. -/
def Stream.remaining (s : Stream) : Nat :=
  s.hi - s.pos

/-- Modelled from the spec: `readBytes(n)`: advances the cursor by exactly `n`;
a read that would exceed the bound fails with `OutOfBounds` and returns no
data. -/
def Stream.readBytes (s : Stream) (n : Nat) : Except Failure (List Nat × Stream) :=
  if s.pos + n ≤ s.hi then .ok ((s.bytes.drop s.pos).take n, { s with pos := s.pos + n })
  else .error ⟨.OutOfBounds, s.pos⟩

/-- Modelled from the spec: `seek(position)`, the position being relative to
the start of the stream; a position past the bound fails with `OutOfBounds`. -/
def Stream.seek (s : Stream) (p : Nat) : Except Failure Stream :=
  if s.lo + p ≤ s.hi then .ok { s with pos := s.lo + p } else .error ⟨.OutOfBounds, s.lo + p⟩

/-- Modelled from the spec: `openSubStream(offset, length)`: an independent
cursor bounded to `[offset, offset + length)` of this stream. -/
def Stream.openSubStream (s : Stream) (offset length : Nat) : Except Failure Stream :=
  if s.lo + offset + length ≤ s.hi then
    .ok { bytes := s.bytes, lo := s.lo + offset, hi := s.lo + offset + length,
          pos := s.lo + offset }
  else .error ⟨.OutOfBounds, s.lo + offset⟩

/-- The unsigned integer spelled by a run of bytes. -/
def uintOfBytes : Endianness → List Nat → Nat
  | .big, bs => bs.foldl (fun acc b => acc * 256 + b) 0
  | .little, bs => bs.foldr (fun b acc => acc * 256 + b) 0

/-- Modelled from the spec: the context of the chunk tree builder (§4.3): the
stream, and the chunks attached so far to the current parent. -/
structure Ctx where
  stream : Stream
  children : List Chunk

/-- Modelled from the spec: a decoding step: it runs on the builder context
and ends with a value or with a failure; the context it reached is kept in both
cases, so that what was built before a failure stays. -/
def Decode (α : Type) : Type :=
  Ctx → Ctx × Except Failure α

/-- Sequencing of decoding steps: a failure aborts what follows. -/
def Decode.bind {α β : Type} (d : Decode α) (f : α → Decode β) : Decode β :=
  fun c =>
    match d c with
    | (c1, .ok a) => f a c1
    | (c1, .error e) => (c1, .error e)

instance : Monad Decode where
  pure a := fun c => (c, .ok a)
  bind := Decode.bind

/-- Fail at the current position of the stream. -/
def failWith {α : Type} (kind : ErrorKind) : Decode α :=
  fun c => (c, .error ⟨kind, c.stream.pos⟩)

/-- Modelled from the spec: `readUint(width, endianness)` on the stream of the
context. -/
def readUint (width : Nat) (endianness : Endianness) : Decode Nat :=
  fun c =>
    match c.stream.readBytes width with
    | .ok (bs, s) => ({ c with stream := s }, .ok (uintOfBytes endianness bs))
    | .error e => (c, .error e)

/-- Modelled from the spec: `seek` on the stream of the context. -/
def seek (p : Nat) : Decode Unit :=
  fun c =>
    match c.stream.seek p with
    | .ok s => ({ c with stream := s }, .ok ())
    | .error e => (c, .error e)

/-- Modelled from the spec: `remaining()` on the stream of the context. -/
def remaining : Decode Nat :=
  fun c => (c, .ok c.stream.remaining)

/-- Modelled from the spec: `withChild(type, name, body)` (§4.3): begins a
chunk at the current position, runs `body` with that chunk as the current
parent, and ends it at the position reached, attaching it to the former
current parent exactly once, also when `body` fails. -/
def withChild {α : Type} (type name : String) (body : Decode α) : Decode α :=
  fun c =>
    match body { stream := c.stream, children := [] } with
    | (c1, r) =>
      ({ stream := c1.stream,
         children := c.children ++ [Chunk.mk c.stream.pos c1.stream.pos type name c1.children] },
       r)

/-- Modelled from the spec: decode a nested region of `length` bytes on a
sub-stream (§4.1): the sub-stream is opened at the current position, the stream
itself advances by `length`, and nothing that happens on the sub-stream moves
it otherwise. -/
def sized {α : Type} (length : Nat) (body : Decode α) : Decode α :=
  fun c =>
    match c.stream.openSubStream c.stream.position length with
    | .error e => (c, .error e)
    | .ok sub =>
      match body { stream := sub, children := c.children } with
      | (c1, r) =>
        ({ stream := { c.stream with pos := c.stream.pos + length }, children := c1.children },
         r)

/-- Modelled from the spec: a scalar field of a structure: its name, type tag,
width in bytes and byte order (layouts are outside the spec, §1). -/
structure Field where
  name : String
  type : String
  width : Nat
  endianness : Endianness
  deriving DecidableEq, Repr

/-- The decoded fields of a structure, by name. -/
abbrev Values : Type :=
  List (String × Nat)

/-- Modelled from the spec: a scalar field is read as a plain scalar chunk
(§4.4). -/
def scalar (f : Field) : Decode (String × Nat) := do
  let v ← withChild f.type f.name (readUint f.width f.endianness)
  pure (f.name, v)

/-- Modelled from the spec: a structure of typed scalar fields, one chunk per
field, in order. -/
def readStruct : List Field → Decode Values
  | [] => pure []
  | f :: fs => do
    let v ← scalar f
    let vs ← readStruct fs
    pure (v :: vs)

/-- Modelled from the spec: a repeated field, `count` times (§4.3).  A failure
in one repetition ends the repetition; what was built so far stays, and the
failure goes on to the caller of the phase (§4.4). -/
def repeatN {α : Type} (body : Decode α) : Nat → Decode (List α)
  | 0 => pure []
  | n + 1 => do
    let a ← body
    let rest ← repeatN body n
    pure (a :: rest)

/-- Modelled from the spec: a null-terminated byte run, terminator included;
`fuel` bounds the number of bytes looked at. -/
def strz : Nat → Decode Unit
  | 0 => failWith .OutOfBounds
  | fuel + 1 => do
    let b ← readUint 1 .little
    if b = 0 then pure () else strz fuel

/-- Modelled from the spec: a field repeated until the end of the stream
(§4.3); `fuel` bounds the number of repetitions. -/
def repeatEos (body : Decode Unit) : Nat → Decode Unit
  | 0 => pure ()
  | fuel + 1 => do
    let r ← remaining
    if r = 0 then pure () else do
      body
      repeatEos body fuel

/-- A decoded field by name; a structure without it is malformed. -/
def Values.field (vs : Values) (name : String) : Decode Nat :=
  match vs.lookup name with
  | some v => pure v
  | none => failWith .MalformedField

/-- Modelled from the spec: the field layouts of the format: the header, an
entry of the program header table, an entry of the section header table (§1
leaves them open). -/
structure Layout where
  header : List Field
  programHeader : List Field
  sectionHeader : List Field

/-- Modelled from the spec: phase 1 of §4.4, the fixed-size header. -/
def decodeHeader (layout : Layout) : Decode Values :=
  withChild "elf_header" "header" (readStruct layout.header)

/-- Modelled from the spec: a table of `count` entries of `size` bytes each at
`offset`: one chunk for the table, one child chunk per entry, each a structure
of scalar fields (§4.4). -/
def decodeTable (type name entryType : String) (fields : List Field)
    (offset count size : Nat) : Decode (List Values) := do
  seek offset
  withChild type name
    (repeatN (withChild entryType "entry" (sized size (readStruct fields))) count)

/-- Modelled from the spec: phase 2 of §4.4, the program header table. -/
def decodeProgramHeaders (layout : Layout) (header : Values) : Decode (List Values) := do
  let offset ← header.field "phoff"
  let count ← header.field "phnum"
  let size ← header.field "phentsize"
  decodeTable "program_header_array" "program_headers" "program_header" layout.programHeader
    offset count size

/-- Modelled from the spec: phase 3 of §4.4, first half: the section header
table. -/
def decodeSectionHeaders (layout : Layout) (header : Values) : Decode (List Values) := do
  let offset ← header.field "shoff"
  let count ← header.field "shnum"
  let size ← header.field "shentsize"
  decodeTable "section_array" "section_headers" "section_header" layout.sectionHeader
    offset count size

/-- Modelled from the spec: phase 3 of §4.4, second half: the string table, at
the offset and size decoded for the string-table section, as a sequence of
null-terminated byte runs, one chunk per string. -/
def decodeStrings (header : Values) (sections : List Values) : Decode Unit := do
  let index ← header.field "shstrndx"
  match sections.get? index with
  | none => failWith .MalformedField
  | some entry => do
    let offset ← Values.field entry "offset"
    let size ← Values.field entry "size"
    seek offset
    withChild "string_table" "strings"
      (sized size (repeatEos (withChild "strz" "string" (strz (size + 1))) size))

/-- Modelled from the spec: an object of the store (§6; `dbif` is not among
the sources): a blob, or a chunk subtree of a blob attached under a parent (the
empty handle for a root). -/
inductive StoredObject where
  | blob (bytes : List Nat)
  | chunk (blob parent : ObjectHandle) (tree : Chunk)

/-- Modelled from the spec: the object store: its objects, a handle being the
index of an object. -/
structure ChunkStore where
  objects : List StoredObject

/-- The object a handle refers to. -/
def ChunkStore.get (st : ChunkStore) (h : ObjectHandle) : Option StoredObject :=
  match h.target with
  | none => none
  | some i => st.objects.get? i

/-- Modelled from the spec: attach finished subtrees of a blob under a parent
(`createChunk` of §6, for a whole subtree). -/
def ChunkStore.attach (st : ChunkStore) (blob parent : ObjectHandle) (trees : List Chunk) :
    ChunkStore :=
  { objects := st.objects ++ trees.map (StoredObject.chunk blob parent) }

/-- The containment and non-overlap invariant on the store: every subtree
satisfies it; a subtree attached under a chunk lies within that chunk and
overlaps none of its children; two subtrees of one blob attached under the same
parent do not overlap. -/
def ChunkStore.Invariant (st : ChunkStore) : Prop :=
  (∀ b p t, StoredObject.chunk b p t ∈ st.objects → t.Invariant) ∧
  (∀ b p t, StoredObject.chunk b p t ∈ st.objects →
    ∀ pb pp pt, st.get p = some (.chunk pb pp pt) →
      rangeWithin t.range pt.range ∧ ∀ c ∈ pt.children, ¬ c.overlaps t) ∧
  st.objects.Pairwise fun x y =>
    ∀ b p t u, x = .chunk b p t → y = .chunk b p u → ¬ t.overlaps u

/-- Modelled from the spec: a `kaitai::kstream` (not among the sources): the
stream over the blob from the start offset, with the blob and the parent chunk
it attaches to. -/
structure kstream where
  stream : Stream
  blob : ObjectHandle
  parent_chunk : ObjectHandle

/-- Modelled from the spec: the decoder opens a stream over the blob at the
start offset (§2); a handle that is no blob, or a start offset outside the
blob, is a failure. -/
def kstream.new (blob : ObjectHandle) (start : Nat) (parent_chunk : ObjectHandle)
    (st : ChunkStore) : Outcome ChunkStore kstream :=
  match st.get blob with
  | some (.blob bytes) =>
    if start ≤ bytes.length then
      .normal st ⟨⟨bytes, start, bytes.length, start⟩, blob, parent_chunk⟩
    else .thrown st (.std_exception (Failure.what ⟨.OutOfBounds, start⟩))
  | _ => .thrown st (.std_exception (Failure.what ⟨.MalformedField, start⟩))

/-- Modelled from the spec: run one phase of the decoder from the start of the
stream with no chunk built yet; the chunks it builds are attached under the
parent chunk of the stream whether it ends well or fails (§4.4: the partial
result of a failing phase is preserved), and a failure leaves as an
exception. -/
def kstream.run {α : Type} (k : kstream) (d : Decode α) (st : ChunkStore) :
    Outcome ChunkStore α :=
  match d { stream := k.stream, children := [] } with
  | (c, .ok a) => .normal (st.attach k.blob k.parent_chunk c.children) a
  | (c, .error f) =>
    .thrown (st.attach k.blob k.parent_chunk c.children) (.std_exception f.what)

namespace elf

/-- Modelled from the spec: a `kaitai::elf::elf_t` (not among the sources): the
stream it decodes from and what it has decoded so far. -/
structure elf_t where
  stream : kstream
  header : Values
  programs : List Values
  sections : List Values

/-- Modelled from the spec: constructing the decoder reads the header. -/
def elf_t.new (layout : Layout) (k : kstream) (st : ChunkStore) : Outcome ChunkStore elf_t :=
  k.run (do
    let header ← decodeHeader layout
    pure { stream := k, header := header, programs := [], sections := [] }) st

/-- Modelled from the spec: `program_headers()`. -/
def elf_t.program_headers (layout : Layout) (e : elf_t) (st : ChunkStore) :
    Outcome ChunkStore elf_t :=
  e.stream.run (do
    let programs ← decodeProgramHeaders layout e.header
    pure { e with programs := programs }) st

/-- Modelled from the spec: `section_headers()`. -/
def elf_t.section_headers (layout : Layout) (e : elf_t) (st : ChunkStore) :
    Outcome ChunkStore elf_t :=
  e.stream.run (do
    let sections ← decodeSectionHeaders layout e.header
    pure { e with sections := sections }) st

/-- Modelled from the spec: `strings()`. -/
def elf_t.strings (e : elf_t) (st : ChunkStore) : Outcome ChunkStore elf_t :=
  e.stream.run (do
    decodeStrings e.header e.sections
    pure e) st

end elf

/-- Modelled from the spec: the callees of `parse` as the decoding engine of
the specification, for a given layout. -/
def engine (layout : Layout) : Collaborators ChunkStore kstream elf.elf_t where
  kstream := kstream.new
  elf_t := elf.elf_t.new layout
  program_headers := elf.elf_t.program_headers layout
  section_headers := elf.elf_t.section_headers layout
  strings := elf.elf_t.strings

/-- Total width in bytes of a structure of scalar fields. -/
def structWidth (fields : List Field) : Nat :=
  (fields.map fun f => f.width).sum

/-- The byte ranges that the four phases decode, in the order of the phases:
the header at the start of the stream, the program header table, the section
header table, and the string table of the string-table section; each as the
decoded header and section header table give it. -/
def elfRegions (layout : Layout) (s : Stream) : Option (List (Nat × Nat)) :=
  match (decodeHeader layout { stream := s, children := [] }).2 with
  | .error _ => none
  | .ok header =>
    match (decodeSectionHeaders layout header { stream := s, children := [] }).2 with
    | .error _ => none
    | .ok sections =>
      match header.lookup "phoff", header.lookup "phnum", header.lookup "phentsize",
        header.lookup "shoff", header.lookup "shnum", header.lookup "shentsize",
        header.lookup "shstrndx" with
      | some phoff, some phnum, some phentsize, some shoff, some shnum, some shentsize,
        some shstrndx =>
        match sections.get? shstrndx with
        | none => none
        | some entry =>
          match entry.lookup "offset", entry.lookup "size" with
          | some stroff, some strsize =>
            some [(s.lo, s.lo + structWidth layout.header),
                  (s.lo + phoff, s.lo + phoff + phnum * phentsize),
                  (s.lo + shoff, s.lo + shoff + shnum * shentsize),
                  (s.lo + stroff, s.lo + stroff + strsize)]
          | _, _ => none
      | _, _, _, _, _, _, _ => none

/-- No chunk of the store names a parent that the store does not hold. -/
def ChunkStore.Closed (st : ChunkStore) : Prop :=
  ∀ b p t, StoredObject.chunk b p t ∈ st.objects →
    ∀ i, p.target = some i → i < st.objects.length

/-- A well-formed input of the ELF-style format (§4.2, §4.4): the handle is a
blob and the start offset lies within it; its header and section header table
decode; the header, the two tables and the string table lie within the blob and
do not overlap one another; the parent chunk, if given, is a chunk of the store
whose range holds all four and none of whose children overlaps them; and no
chunk of the blob already attached under that parent overlaps them. -/
def WellFormed (layout : Layout) (st : ChunkStore) (blob : ObjectHandle) (start : Nat)
    (parent_chunk : ObjectHandle) : Prop :=
  ∃ bytes regions,
    st.get blob = some (.blob bytes) ∧
    elfRegions layout ⟨bytes, start, bytes.length, start⟩ = some regions ∧
    start ≤ bytes.length ∧
    (∀ r ∈ regions, r.2 ≤ bytes.length) ∧
    regions.Pairwise (fun a b => ¬ rangesOverlap a b) ∧
    (parent_chunk.target = none ∨
      ∃ pb pp pt, st.get parent_chunk = some (.chunk pb pp pt) ∧
        ∀ r ∈ regions, rangeWithin r pt.range ∧ ∀ c ∈ pt.children, ¬ rangesOverlap c.range r) ∧
    (∀ t, StoredObject.chunk blob parent_chunk t ∈ st.objects →
      ∀ r ∈ regions, ¬ rangesOverlap t.range r)

/-- An illustrative layout: a header with a magic number, the positions of the
two tables and the index of the string-table section; two-field program header
entries; section header entries with name, offset and size. -/
def demoLayout : Layout where
  header := [⟨"magic", "u32", 4, .big⟩, ⟨"phoff", "u8", 1, .little⟩,
    ⟨"phentsize", "u8", 1, .little⟩, ⟨"phnum", "u8", 1, .little⟩, ⟨"shoff", "u8", 1, .little⟩,
    ⟨"shentsize", "u8", 1, .little⟩, ⟨"shnum", "u8", 1, .little⟩,
    ⟨"shstrndx", "u8", 1, .little⟩]
  programHeader := [⟨"type", "u8", 1, .little⟩, ⟨"offset", "u8", 1, .little⟩]
  sectionHeader := [⟨"name", "u8", 1, .little⟩, ⟨"offset", "u8", 1, .little⟩,
    ⟨"size", "u8", 1, .little⟩]

/-- The scenario of §8 in that layout: an 11-byte header, four program header
entries at 11, the string table "\0.text\0.data\0" at 19, two section header
entries at 32, the first of them the string-table section. -/
def demoBlob : List Nat :=
  [127, 69, 76, 70, 11, 2, 4, 32, 3, 2, 0,
   1, 0, 1, 0, 2, 0, 6, 0,
   0, 46, 116, 101, 120, 116, 0, 46, 100, 97, 116, 97, 0,
   0, 19, 13, 1, 19, 13]

/-- A store that holds the blob of the scenario (handle 0) and a root chunk
over the whole of it (handle 1). -/
def demoStore : ChunkStore :=
  { objects := [.blob demoBlob, .chunk ⟨some 0⟩ ObjectHandle.none (.mk 0 38 "blob" "file" [])] }

/-- What a stored object is, at a glance: for a chunk, its range and the number
of its children. -/
def StoredObject.summary : StoredObject → Option (Nat × Nat × Nat)
  | .blob _ => none
  | .chunk _ _ t => some (t.start, t.stop, t.children.length)

/-- Chunks that follow one another from `a` to `b`: each starts where the
previous one stopped or later, none is reversed, each satisfies the invariant,
and the last one stops at `b` or earlier. -/
def Chain (a b : Nat) : List Chunk → Prop
  | [] => a ≤ b
  | c :: cs => a ≤ c.start ∧ c.start ≤ c.stop ∧ c.Invariant ∧ Chain c.stop b cs

/-- A stream whose cursor is within its bounds. -/
def Stream.Ok (s : Stream) : Prop :=
  s.lo ≤ s.pos ∧ s.pos ≤ s.hi

/-- A decoding step that only moves forward, by `w` bytes at most, within the
bounds of the stream, and attaches to the current parent a chain of chunks
over the bytes it moved across; on failure as well. -/
def Advances {α : Type} (w : Nat) (d : Decode α) : Prop :=
  ∀ c : Ctx, c.stream.Ok →
    (d c).1.stream.bytes = c.stream.bytes ∧ (d c).1.stream.lo = c.stream.lo ∧
    (d c).1.stream.hi = c.stream.hi ∧ (d c).1.stream.pos ≤ c.stream.hi ∧
    (d c).1.stream.pos ≤ c.stream.pos + w ∧
    ∃ new, (d c).1.children = c.children ++ new ∧ Chain c.stream.pos (d c).1.stream.pos new

/-- What a phase leaves for a byte range: nothing, or one chunk within the
range that satisfies the invariant. -/
def FitsRegion (r : Nat × Nat) (cs : List Chunk) : Prop :=
  cs = [] ∨ ∃ c, cs = [c] ∧ c.Invariant ∧ rangeWithin c.range r

end kaitai

end veles

namespace veles.kaitai
open veles.dbif

/-! ## How the `try` block unfolds -/

section Unfolding

variable {σ κ ε : Type} (c : Collaborators σ κ ε)
  (blob : ObjectHandle) (start : Nat) (parent_chunk : ObjectHandle) (m : Machine σ κ ε)

theorem tryBody_unfold :
    ElfParser.tryBody c blob start parent_chunk m =
      match c.kstream blob start parent_chunk m.store with
      | .thrown s e => .thrown ⟨m.this, s, m.log ++ [⟨.kstream blob start parent_chunk, false⟩]⟩ e
      | .normal s1 k =>
        match c.elf_t k s1 with
        | .thrown s e => .thrown ⟨m.this, s, m.log ++ [⟨.kstream blob start parent_chunk, true⟩,
            ⟨.elf_t k, false⟩]⟩ e
        | .normal s2 p =>
          match c.program_headers p s2 with
          | .thrown s e => .thrown ⟨m.this, s, m.log ++ [⟨.kstream blob start parent_chunk, true⟩,
              ⟨.elf_t k, true⟩, ⟨.program_headers p, false⟩]⟩ e
          | .normal s3 p3 =>
            match c.section_headers p3 s3 with
            | .thrown s e => .thrown ⟨m.this, s, m.log ++ [⟨.kstream blob start parent_chunk, true⟩,
                ⟨.elf_t k, true⟩, ⟨.program_headers p, true⟩, ⟨.section_headers p3, false⟩]⟩ e
            | .normal s4 p4 =>
              match c.strings p4 s4 with
              | .thrown s e => .thrown ⟨m.this, s, m.log ++ [⟨.kstream blob start parent_chunk, true⟩,
                  ⟨.elf_t k, true⟩, ⟨.program_headers p, true⟩, ⟨.section_headers p3, true⟩,
                  ⟨.strings p4, false⟩]⟩ e
              | .normal s5 _ => .normal ⟨m.this, s5, m.log ++ [⟨.kstream blob start parent_chunk, true⟩,
                  ⟨.elf_t k, true⟩, ⟨.program_headers p, true⟩, ⟨.section_headers p3, true⟩,
                  ⟨.strings p4, true⟩]⟩ () := by
  simp only [ElfParser.tryBody, bind, Exec.bind, invoke, pure]
  cases c.kstream blob start parent_chunk m.store with
  | thrown s e => rfl
  | normal s1 k =>
    simp only
    cases c.elf_t k s1 with
    | thrown s e => simp
    | normal s2 p =>
      simp only
      cases c.program_headers p s2 with
      | thrown s e => simp
      | normal s3 p3 =>
        simp only
        cases c.section_headers p3 s3 with
        | thrown s e => simp
        | normal s4 p4 =>
          simp only
          cases c.strings p4 s4 with
          | thrown s e => simp
          | normal s5 p5 => simp

theorem parse_unfold :
    ElfParser.parse c blob start parent_chunk m =
      match ElfParser.tryBody c blob start parent_chunk m with
      | .normal m1 u => .normal m1 u
      | .thrown m1 e => if e.isStd then .normal m1 () else .thrown m1 e := rfl

theorem parse_of_normal {m1 : Machine σ κ ε} {u : Unit}
    (h : ElfParser.tryBody c blob start parent_chunk m = .normal m1 u) :
    ElfParser.parse c blob start parent_chunk m = .normal m1 () := by
  rw [parse_unfold, h]

theorem parse_of_std {m1 : Machine σ κ ε} {e : Thrown}
    (h : ElfParser.tryBody c blob start parent_chunk m = .thrown m1 e) (he : e.isStd = true) :
    ElfParser.parse c blob start parent_chunk m = .normal m1 () := by
  rw [parse_unfold, h]; simp [he]

theorem parse_of_foreign {m1 : Machine σ κ ε} {e : Thrown}
    (h : ElfParser.tryBody c blob start parent_chunk m = .thrown m1 e) (he : e.isStd = false) :
    ElfParser.parse c blob start parent_chunk m = .thrown m1 e := by
  rw [parse_unfold, h]; simp [he]

theorem parse_state :
    (ElfParser.parse c blob start parent_chunk m).state =
      (ElfParser.tryBody c blob start parent_chunk m).state := by
  rw [parse_unfold]
  cases ElfParser.tryBody c blob start parent_chunk m with
  | normal m1 u => rfl
  | thrown m1 e => cases h : e.isStd <;> simp [h, Outcome.state]

end Unfolding

/-! ## C1 -/

/-- C1, as stated, fails: when opening the stream raises something that is not a
`std::exception`, `parse` does not return normally; the exception reaches the
caller. -/
theorem parse_propagates_foreign_failure :
    (ElfParser.parse
        (scripted ⟨[], some (.foreign "dbif error")⟩ ⟨[], none⟩ ⟨[], none⟩ ⟨[], none⟩ ⟨[], none⟩)
        ⟨some 7⟩ 0 ObjectHandle.none (Machine.fresh []) =
      .thrown ⟨ElfParser.new, [], [⟨.kstream ⟨some 7⟩ 0 ObjectHandle.none, false⟩]⟩
        (.foreign "dbif error")) ∧
    ¬ ∃ m1, ElfParser.parse
        (scripted ⟨[], some (.foreign "dbif error")⟩ ⟨[], none⟩ ⟨[], none⟩ ⟨[], none⟩ ⟨[], none⟩)
        ⟨some 7⟩ 0 ObjectHandle.none (Machine.fresh []) = .normal m1 () := by
  constructor
  · decide
  · rintro ⟨m1, h⟩
    have h2 : ElfParser.parse
        (scripted ⟨[], some (.foreign "dbif error")⟩ ⟨[], none⟩ ⟨[], none⟩ ⟨[], none⟩ ⟨[], none⟩)
        ⟨some 7⟩ 0 ObjectHandle.none (Machine.fresh []) =
      .thrown ⟨ElfParser.new, [], [⟨.kstream ⟨some 7⟩ 0 ObjectHandle.none, false⟩]⟩
        (.foreign "dbif error") := by decide
    rw [h2] at h
    cases h

/-- C1 (amended): for every blob, start offset and parent chunk, if the failure
that ends the `try` block (whichever step raised it) is a `std::exception`, then
`parse` returns normally to its caller, in the state the failing step left: the
failure is caught and discarded, not propagated.  Without a failure `parse`
returns normally as well. -/
theorem parse_returns_normally_on_std_failure {σ κ ε : Type} (c : Collaborators σ κ ε)
    (blob : ObjectHandle) (start : Nat) (parent_chunk : ObjectHandle) (m : Machine σ κ ε)
    (hstd : ∀ m1 e, ElfParser.tryBody c blob start parent_chunk m = .thrown m1 e →
      e.isStd = true) :
    ElfParser.parse c blob start parent_chunk m =
      .normal (ElfParser.tryBody c blob start parent_chunk m).state () := by
  cases h : ElfParser.tryBody c blob start parent_chunk m with
  | normal m1 u => simpa [Outcome.state] using parse_of_normal c blob start parent_chunk m h
  | thrown m1 e =>
    simpa [Outcome.state] using parse_of_std c blob start parent_chunk m h (hstd m1 e h)

/-- C1 (amended) on a run whose program header phase ends in a `std::exception`. -/
theorem parse_returns_normally_on_std_failure_witness :
    ElfParser.parse
        (scripted ⟨[], none⟩ ⟨["elf_header"], none⟩ ⟨["program_header"], some (.std_exception "eof")⟩
          ⟨[], none⟩ ⟨[], none⟩)
        ⟨some 7⟩ 16 ⟨some 3⟩ (Machine.fresh ["blob"]) =
      .normal (ElfParser.tryBody
        (scripted ⟨[], none⟩ ⟨["elf_header"], none⟩ ⟨["program_header"], some (.std_exception "eof")⟩
          ⟨[], none⟩ ⟨[], none⟩)
        ⟨some 7⟩ 16 ⟨some 3⟩ (Machine.fresh ["blob"])).state () :=
  parse_returns_normally_on_std_failure _ _ _ _ _ (by
    intro m1 e h
    have h2 : ElfParser.tryBody
        (scripted ⟨[], none⟩ ⟨["elf_header"], none⟩ ⟨["program_header"], some (.std_exception "eof")⟩
          ⟨[], none⟩ ⟨[], none⟩)
        ⟨some 7⟩ 16 ⟨some 3⟩ (Machine.fresh ["blob"]) =
      .thrown ⟨ElfParser.new, ["blob", "elf_header", "program_header"],
        [⟨.kstream ⟨some 7⟩ 16 ⟨some 3⟩, true⟩, ⟨.elf_t (), true⟩, ⟨.program_headers (), false⟩]⟩
        (.std_exception "eof") := by decide
    rw [h2] at h
    cases h
    rfl)

/-! ## C2 -/

/-- C2, as stated, fails: when opening the stream fails, no phase fails and yet
none of the four phases is invoked, so the invoked phases are not the fixed
sequence cut after the first failing phase. -/
theorem no_phase_when_stream_fails :
    ¬ FixedSequenceCut (phaseLog (newCalls (Machine.fresh [])
        (ElfParser.parse
          (scripted ⟨[], some (.std_exception "bad blob")⟩ ⟨[], none⟩ ⟨[], none⟩ ⟨[], none⟩ ⟨[], none⟩)
          ⟨some 7⟩ 0 ObjectHandle.none (Machine.fresh [])))) := by
  have h : phaseLog (newCalls (Machine.fresh [])
        (ElfParser.parse
          (scripted ⟨[], some (.std_exception "bad blob")⟩ ⟨[], none⟩ ⟨[], none⟩ ⟨[], none⟩ ⟨[], none⟩)
          ⟨some 7⟩ 0 ObjectHandle.none (Machine.fresh []))) = [] := by decide
  rw [h]
  rintro ⟨succeeds, hs⟩
  cases hh : succeeds .Header <;> simp [Phase.sequence, cutAfterFirstFailure, hh] at hs

/-- C2 (amended): for every input, either opening the stream fails and no phase
is invoked, or the stream is opened and the phases invoked are the fixed
sequence Header, ProgramHeaders, SectionHeaders, Strings cut off immediately
after the first phase that fails: each at most once, in order, the next one
only after all earlier ones succeeded, and all four when none fails. -/
theorem phases_sequential {σ κ ε : Type} (c : Collaborators σ κ ε)
    (blob : ObjectHandle) (start : Nat) (parent_chunk : ObjectHandle) (m : Machine σ κ ε) :
    ((∃ s e, c.kstream blob start parent_chunk m.store = .thrown s e) ∧
      phaseLog (newCalls m (ElfParser.parse c blob start parent_chunk m)) = []) ∨
    ((∃ s k, c.kstream blob start parent_chunk m.store = .normal s k) ∧
      FixedSequenceCut (phaseLog (newCalls m (ElfParser.parse c blob start parent_chunk m)))) := by
  rw [newCalls, parse_state, tryBody_unfold]
  cases h1 : c.kstream blob start parent_chunk m.store with
  | thrown s e =>
    left
    exact ⟨⟨s, e, rfl⟩, by simp [Outcome.state, phaseLog, Call.phase]⟩
  | normal s1 k =>
    right
    refine ⟨⟨s1, k, rfl⟩, ?_⟩
    simp only
    cases h2 : c.elf_t k s1 with
    | thrown s e =>
      refine ⟨fun _ => false, ?_⟩
      simp [Outcome.state, phaseLog, Call.phase, Phase.sequence, cutAfterFirstFailure]
    | normal s2 p =>
      simp only
      cases h3 : c.program_headers p s2 with
      | thrown s e =>
        refine ⟨fun ph => decide (ph = .Header), ?_⟩
        simp [Outcome.state, phaseLog, Call.phase, Phase.sequence, cutAfterFirstFailure]
      | normal s3 p3 =>
        simp only
        cases h4 : c.section_headers p3 s3 with
        | thrown s e =>
          refine ⟨fun ph => decide (ph = .Header ∨ ph = .ProgramHeaders), ?_⟩
          simp [Outcome.state, phaseLog, Call.phase, Phase.sequence, cutAfterFirstFailure]
        | normal s4 p4 =>
          simp only
          cases h5 : c.strings p4 s4 with
          | thrown s e =>
            refine ⟨fun ph => decide (ph ≠ .Strings), ?_⟩
            simp [Outcome.state, phaseLog, Call.phase, Phase.sequence, cutAfterFirstFailure]
          | normal s5 p5 =>
            refine ⟨fun _ => true, ?_⟩
            simp [Outcome.state, phaseLog, Call.phase, Phase.sequence, cutAfterFirstFailure]

/-! ## C3 -/

/-- C3: whichever step fails (opening the stream, or one of the four phases
after the earlier ones succeeded), the store in which `parse` ends is exactly
the store the failing step left when it raised: what the earlier phases
committed and the partial result of the failing one, nothing removed and
nothing added afterwards. -/
theorem store_preserved_at_failure {σ κ ε : Type} (c : Collaborators σ κ ε)
    (blob : ObjectHandle) (start : Nat) (parent_chunk : ObjectHandle) (m : Machine σ κ ε) :
    (∀ s e, c.kstream blob start parent_chunk m.store = .thrown s e →
      (ElfParser.parse c blob start parent_chunk m).state.store = s) ∧
    (∀ s0 k s e, c.kstream blob start parent_chunk m.store = .normal s0 k →
      c.elf_t k s0 = .thrown s e →
      (ElfParser.parse c blob start parent_chunk m).state.store = s) ∧
    (∀ s0 k s1 p1 s e, c.kstream blob start parent_chunk m.store = .normal s0 k →
      c.elf_t k s0 = .normal s1 p1 → c.program_headers p1 s1 = .thrown s e →
      (ElfParser.parse c blob start parent_chunk m).state.store = s) ∧
    (∀ s0 k s1 p1 s2 p2 s e, c.kstream blob start parent_chunk m.store = .normal s0 k →
      c.elf_t k s0 = .normal s1 p1 → c.program_headers p1 s1 = .normal s2 p2 →
      c.section_headers p2 s2 = .thrown s e →
      (ElfParser.parse c blob start parent_chunk m).state.store = s) ∧
    (∀ s0 k s1 p1 s2 p2 s3 p3 s e, c.kstream blob start parent_chunk m.store = .normal s0 k →
      c.elf_t k s0 = .normal s1 p1 → c.program_headers p1 s1 = .normal s2 p2 →
      c.section_headers p2 s2 = .normal s3 p3 → c.strings p3 s3 = .thrown s e →
      (ElfParser.parse c blob start parent_chunk m).state.store = s) := by
  rw [parse_state, tryBody_unfold]
  refine ⟨?_, ?_, ?_, ?_, ?_⟩
  · intro s e h0
    simp [h0, Outcome.state]
  · intro s0 k s e h0 h1
    simp [h0, h1, Outcome.state]
  · intro s0 k s1 p1 s e h0 h1 h2
    simp [h0, h1, h2, Outcome.state]
  · intro s0 k s1 p1 s2 p2 s e h0 h1 h2 h3
    simp [h0, h1, h2, h3, Outcome.state]
  · intro s0 k s1 p1 s2 p2 s3 p3 s e h0 h1 h2 h3 h4
    simp [h0, h1, h2, h3, h4, Outcome.state]

/-- C3 on a run whose section header phase fails after one entry. -/
theorem store_preserved_at_failure_witness :
    (ElfParser.parse
      (scripted ⟨[], none⟩ ⟨["elf_header"], none⟩ ⟨["ph0", "ph1"], none⟩
        ⟨["sh0"], some (.std_exception "sh1: read past end")⟩ ⟨["str"], none⟩)
      ⟨some 7⟩ 0 ObjectHandle.none (Machine.fresh [])).state.store =
        ["elf_header", "ph0", "ph1", "sh0"] :=
  (store_preserved_at_failure
    (scripted ⟨[], none⟩ ⟨["elf_header"], none⟩ ⟨["ph0", "ph1"], none⟩
      ⟨["sh0"], some (.std_exception "sh1: read past end")⟩ ⟨["str"], none⟩)
    ⟨some 7⟩ 0 ObjectHandle.none (Machine.fresh [])).2.2.2.1
    [] () ["elf_header"] () ["elf_header", "ph0", "ph1"] () ["elf_header", "ph0", "ph1", "sh0"]
    (.std_exception "sh1: read past end") (by decide) (by decide) (by decide) (by decide)

/-! ## C9 -/

/-- C9: the handler takes `std::exception` only.  `parse` returns normally
exactly when no step raises a failure that is not a `std::exception`; a failure
of another kind leaves `parse` as it left the `try` block, in the state the
raising step produced, and the raising call is the last call made: the
remaining phases are not run. -/
theorem catch_only_std_exception {σ κ ε : Type} (c : Collaborators σ κ ε)
    (blob : ObjectHandle) (start : Nat) (parent_chunk : ObjectHandle) (m : Machine σ κ ε) :
    ((∃ m1, ElfParser.parse c blob start parent_chunk m = .normal m1 ()) ↔
      ¬ ∃ m1 e, ElfParser.tryBody c blob start parent_chunk m = .thrown m1 e ∧
        e.isStd = false) ∧
    (∀ m1 e, ElfParser.tryBody c blob start parent_chunk m = .thrown m1 e → e.isStd = false →
      ElfParser.parse c blob start parent_chunk m = .thrown m1 e ∧
      ∃ call, (newCalls m (ElfParser.parse c blob start parent_chunk m)).getLast? =
        some ⟨call, false⟩) := by
  constructor
  · constructor
    · rintro ⟨m1, h⟩ ⟨m2, e, hb, he⟩
      rw [parse_of_foreign c blob start parent_chunk m hb he] at h
      cases h
    · intro h
      cases hb : ElfParser.tryBody c blob start parent_chunk m with
      | normal m1 u => exact ⟨m1, parse_of_normal c blob start parent_chunk m hb⟩
      | thrown m1 e =>
        cases he : e.isStd with
        | true => exact ⟨m1, parse_of_std c blob start parent_chunk m hb he⟩
        | false => exact absurd ⟨m1, e, hb, he⟩ h
  · intro m1 e hb he
    refine ⟨parse_of_foreign c blob start parent_chunk m hb he, ?_⟩
    rw [newCalls, parse_state]
    rw [tryBody_unfold] at hb ⊢
    revert hb
    cases h1 : c.kstream blob start parent_chunk m.store with
    | thrown s e1 => intro _; simp [Outcome.state]
    | normal s1 k =>
      simp only
      cases h2 : c.elf_t k s1 with
      | thrown s e1 => intro _; simp [Outcome.state]
      | normal s2 p =>
        simp only
        cases h3 : c.program_headers p s2 with
        | thrown s e1 => intro _; simp [Outcome.state]
        | normal s3 p3 =>
          simp only
          cases h4 : c.section_headers p3 s3 with
          | thrown s e1 => intro _; simp [Outcome.state]
          | normal s4 p4 =>
            simp only
            cases h5 : c.strings p4 s4 with
            | thrown s e1 => intro _; simp [Outcome.state]
            | normal s5 p5 => intro hb; cases hb

/-! ## C4 -/

/-- C4, as stated, fails: when reading the header of a blob that is no ELF
header raises a `std::exception` describing the failure at offset 0, the caller
gets a normal return without a value, exactly what it gets from a decoding that
succeeds and leaves the same store; nothing of the failure reaches it. -/
theorem failure_not_surfaced :
    callerView (ElfParser.parse
        (scripted ⟨[], none⟩ ⟨["magic"], some (.std_exception "elf: MalformedField at offset 0")⟩
          ⟨[], none⟩ ⟨[], none⟩ ⟨[], none⟩)
        ⟨some 7⟩ 0 ObjectHandle.none (Machine.fresh [])) = .normal ["magic"] () ∧
    callerView (ElfParser.parse
        (scripted ⟨[], none⟩ ⟨["magic"], none⟩ ⟨[], none⟩ ⟨[], none⟩ ⟨[], none⟩)
        ⟨some 7⟩ 0 ObjectHandle.none (Machine.fresh [])) = .normal ["magic"] () := by
  constructor <;> decide

/-- C4 (amended): for every input on which a step fails with a
`std::exception`, `parse` returns normally without a value and without a
diagnostic: the caller is left with the partial chunk store alone, and cannot
tell the call from one of a decoding that succeeded and left that store. -/
theorem std_failure_discarded {σ κ ε : Type} (c : Collaborators σ κ ε)
    (blob : ObjectHandle) (start : Nat) (parent_chunk : ObjectHandle) (m m1 : Machine σ κ ε)
    (e : Thrown) (hfail : ElfParser.tryBody c blob start parent_chunk m = .thrown m1 e)
    (hstd : e.isStd = true) :
    callerView (ElfParser.parse c blob start parent_chunk m) = .normal m1.store () ∧
    ∀ (c2 : Collaborators σ κ ε) (blob2 : ObjectHandle) (start2 : Nat)
      (parent2 : ObjectHandle) (m2 m3 : Machine σ κ ε) (u : Unit),
      ElfParser.tryBody c2 blob2 start2 parent2 m2 = .normal m3 u → m3.store = m1.store →
      callerView (ElfParser.parse c2 blob2 start2 parent2 m2) =
        callerView (ElfParser.parse c blob start parent_chunk m) := by
  have h1 := parse_of_std c blob start parent_chunk m hfail hstd
  refine ⟨by rw [h1]; rfl, ?_⟩
  intro c2 blob2 start2 parent2 m2 m3 u h2 hs
  rw [h1, parse_of_normal c2 blob2 start2 parent2 m2 h2]
  simp [callerView, hs]

/-- C4 (amended) on a run whose header phase ends in a `std::exception`. -/
theorem std_failure_discarded_witness :
    callerView (ElfParser.parse
        (scripted ⟨[], none⟩ ⟨["magic"], some (.std_exception "elf: OutOfBounds at offset 0")⟩
          ⟨[], none⟩ ⟨[], none⟩ ⟨[], none⟩)
        ⟨some 7⟩ 0 ObjectHandle.none (Machine.fresh [])) = .normal ["magic"] () :=
  (std_failure_discarded
    (scripted ⟨[], none⟩ ⟨["magic"], some (.std_exception "elf: OutOfBounds at offset 0")⟩
      ⟨[], none⟩ ⟨[], none⟩ ⟨[], none⟩)
    ⟨some 7⟩ 0 ObjectHandle.none (Machine.fresh [])
    ⟨ElfParser.new, ["magic"], [⟨.kstream ⟨some 7⟩ 0 ObjectHandle.none, true⟩, ⟨.elf_t (), false⟩]⟩
    (.std_exception "elf: OutOfBounds at offset 0") (by decide) (by decide)).1

/-! ## C5 -/

/-- C5: calling `parse` with start offset and parent chunk omitted is calling
it with start offset 0 and the empty handle: the two calls end alike (same
store, same calls), the stream opened is the one over `(blob, 0, none)`, and a
normal return carries nothing but the unit value. -/
theorem parse_default_arguments {σ κ ε : Type} (c : Collaborators σ κ ε)
    (blob : ObjectHandle) (m : Machine σ κ ε) :
    (ElfParser.parse c blob) m = ElfParser.parse c blob 0 ObjectHandle.none m ∧
    (ElfParser.parse c blob 0) m = ElfParser.parse c blob 0 ObjectHandle.none m ∧
    (∃ ok, (newCalls m ((ElfParser.parse c blob) m)).head? =
      some ⟨.kstream blob 0 ObjectHandle.none, ok⟩) ∧
    (∀ m1 u, (ElfParser.parse c blob) m = .normal m1 u → u = ()) := by
  refine ⟨rfl, rfl, ?_, fun _ _ _ => rfl⟩
  rw [newCalls, parse_state, tryBody_unfold]
  cases h1 : c.kstream blob 0 ObjectHandle.none m.store with
  | thrown s e => exact ⟨false, by simp [Outcome.state]⟩
  | normal s1 k =>
    refine ⟨true, ?_⟩
    simp only
    cases h2 : c.elf_t k s1 with
    | thrown s e => simp [Outcome.state]
    | normal s2 p =>
      simp only
      cases h3 : c.program_headers p s2 with
      | thrown s e => simp [Outcome.state]
      | normal s3 p3 =>
        simp only
        cases h4 : c.section_headers p3 s3 with
        | thrown s e => simp [Outcome.state]
        | normal s4 p4 =>
          simp only
          cases h5 : c.strings p4 s4 with
          | thrown s e => simp [Outcome.state]
          | normal s5 p5 => simp [Outcome.state]

/-! ## What `parse` reads of the machine -/

/-- C10: the constructor hands exactly "elf (ksy)" to the `Parser` base, a
lookup by name matches this decoder for that string and for no other, and a
call of `parse` leaves the parser object, hence its identifier, as it was. -/
theorem format_identifier {σ κ ε : Type} (c : Collaborators σ κ ε)
    (blob : ObjectHandle) (start : Nat) (parent_chunk : ObjectHandle) (m : Machine σ κ ε) :
    ElfParser.new.id = "elf (ksy)" ∧
    (∀ name, ElfParser.new.answersTo name = true ↔ name = "elf (ksy)") ∧
    (ElfParser.parse c blob start parent_chunk m).state.this = m.this := by
  refine ⟨rfl, ?_, ?_⟩
  · intro name
    simp only [parser.Parser.answersTo, ElfParser.new, beq_iff_eq]
    exact eq_comm
  · rw [parse_state, tryBody_unfold]
    cases h1 : c.kstream blob start parent_chunk m.store with
    | thrown s e => rfl
    | normal s1 k =>
      simp only
      cases h2 : c.elf_t k s1 with
      | thrown s e => rfl
      | normal s2 p =>
        simp only
        cases h3 : c.program_headers p s2 with
        | thrown s e => rfl
        | normal s3 p3 =>
          simp only
          cases h4 : c.section_headers p3 s3 with
          | thrown s e => rfl
          | normal s4 p4 =>
            simp only
            cases h5 : c.strings p4 s4 with
            | thrown s e => rfl
            | normal s5 p5 => rfl

/-! ## The calls that `parse` makes -/

/-- The first call `parse` makes opens the stream, over exactly the caller's
blob, start offset and parent chunk; no other stream is opened; the decoder is
constructed over the stream that this call returned, and the three accessors
run on that decoder, each on the object as the previous step left it. -/
theorem calls_of_parse {σ κ ε : Type} (c : Collaborators σ κ ε)
    (blob : ObjectHandle) (start : Nat) (parent_chunk : ObjectHandle) (m : Machine σ κ ε) :
    ∃ ok rest,
      newCalls m (ElfParser.parse c blob start parent_chunk m) =
        ⟨.kstream blob start parent_chunk, ok⟩ :: rest ∧
      (∀ ev ∈ rest, ∀ b s p, ev.call ≠ .kstream b s p) ∧
      (∀ ev ∈ rest, ∀ k, ev.call = .elf_t k →
        ∃ s0, c.kstream blob start parent_chunk m.store = .normal s0 k) ∧
      (∀ ev ∈ rest, ∀ d, ev.call = .program_headers d →
        ∃ s0 k s1, c.kstream blob start parent_chunk m.store = .normal s0 k ∧
          c.elf_t k s0 = .normal s1 d) ∧
      (∀ ev ∈ rest, ∀ d, ev.call = .section_headers d →
        ∃ s0 k s1 d1 s2, c.kstream blob start parent_chunk m.store = .normal s0 k ∧
          c.elf_t k s0 = .normal s1 d1 ∧ c.program_headers d1 s1 = .normal s2 d) ∧
      (∀ ev ∈ rest, ∀ d, ev.call = .strings d →
        ∃ s0 k s1 d1 s2 d2 s3, c.kstream blob start parent_chunk m.store = .normal s0 k ∧
          c.elf_t k s0 = .normal s1 d1 ∧ c.program_headers d1 s1 = .normal s2 d2 ∧
          c.section_headers d2 s2 = .normal s3 d) := by
  rw [newCalls, parse_state, tryBody_unfold]
  cases h1 : c.kstream blob start parent_chunk m.store with
  | thrown s e => exact ⟨false, [], by simp [Outcome.state]⟩
  | normal s1 k =>
    simp only
    cases h2 : c.elf_t k s1 with
    | thrown s e =>
      exact ⟨true, [⟨.elf_t k, false⟩], by simp [Outcome.state]⟩
    | normal s2 p =>
      simp only
      cases h3 : c.program_headers p s2 with
      | thrown s e =>
        exact ⟨true, [⟨.elf_t k, true⟩, ⟨.program_headers p, false⟩], by
          simp [Outcome.state]
          exact ⟨s1, k, ⟨rfl, rfl⟩, s2, h2⟩⟩
      | normal s3 p3 =>
        simp only
        cases h4 : c.section_headers p3 s3 with
        | thrown s e =>
          exact ⟨true, [⟨.elf_t k, true⟩, ⟨.program_headers p, true⟩, ⟨.section_headers p3, false⟩],
            by
              simp [Outcome.state]
              exact ⟨⟨s1, k, ⟨rfl, rfl⟩, s2, h2⟩, ⟨s1, k, ⟨rfl, rfl⟩, s2, p, h2, s3, h3⟩⟩⟩
        | normal s4 p4 =>
          simp only
          cases h5 : c.strings p4 s4 with
          | thrown s e =>
            exact ⟨true, [⟨.elf_t k, true⟩, ⟨.program_headers p, true⟩, ⟨.section_headers p3, true⟩,
              ⟨.strings p4, false⟩], by
                simp [Outcome.state]
                exact ⟨⟨s1, k, ⟨rfl, rfl⟩, s2, h2⟩, ⟨s1, k, ⟨rfl, rfl⟩, s2, p, h2, s3, h3⟩, ⟨s1, k, ⟨rfl, rfl⟩, s2, p, h2, s3, p3, h3, s4, h4⟩⟩⟩
          | normal s5 p5 =>
            exact ⟨true, [⟨.elf_t k, true⟩, ⟨.program_headers p, true⟩, ⟨.section_headers p3, true⟩,
              ⟨.strings p4, true⟩], by
                simp [Outcome.state]
                exact ⟨⟨s1, k, ⟨rfl, rfl⟩, s2, h2⟩, ⟨s1, k, ⟨rfl, rfl⟩, s2, p, h2, s3, h3⟩, ⟨s1, k, ⟨rfl, rfl⟩, s2, p, h2, s3, p3, h3, s4, h4⟩⟩⟩

/-! ## The decoding engine: chains of chunks -/

theorem chain_le {a b : Nat} {cs : List Chunk} (h : Chain a b cs) : a ≤ b := by
  induction cs generalizing a with
  | nil => exact h
  | cons c cs ih =>
    obtain ⟨h1, h2, _, h4⟩ := h
    have := ih h4
    omega

theorem chain_append {a b d : Nat} {cs ds : List Chunk} (h1 : Chain a b cs) (h2 : Chain b d ds) :
    Chain a d (cs ++ ds) := by
  induction cs generalizing a with
  | nil =>
    cases ds with
    | nil => exact Nat.le_trans h1 (chain_le h2)
    | cons e es =>
      obtain ⟨g1, g2, g3, g4⟩ := h2
      exact ⟨Nat.le_trans h1 g1, g2, g3, g4⟩
  | cons c cs ih =>
    obtain ⟨g1, g2, g3, g4⟩ := h1
    exact ⟨g1, g2, g3, ih g4⟩

theorem chain_widen {a b b2 : Nat} {cs : List Chunk} (h : Chain a b cs) (hb : b ≤ b2) :
    Chain a b2 cs := by
  have := chain_append h (show Chain b b2 [] from hb)
  simpa using this

theorem chain_mem {a b : Nat} {cs : List Chunk} (h : Chain a b cs) :
    ∀ c ∈ cs, a ≤ c.start ∧ c.stop ≤ b ∧ c.Invariant := by
  induction cs generalizing a with
  | nil => intro c hc; cases hc
  | cons e es ih =>
    obtain ⟨g1, g2, g3, g4⟩ := h
    intro c hc
    rcases List.mem_cons.mp hc with rfl | hc
    · exact ⟨g1, chain_le g4, g3⟩
    · obtain ⟨k1, k2, k3⟩ := ih g4 c hc
      exact ⟨by omega, k2, k3⟩

theorem chain_pairwise {a b : Nat} {cs : List Chunk} (h : Chain a b cs) :
    cs.Pairwise fun x y => ¬ x.overlaps y := by
  induction cs generalizing a with
  | nil => exact List.Pairwise.nil
  | cons e es ih =>
    obtain ⟨g1, g2, g3, g4⟩ := h
    refine List.Pairwise.cons ?_ (ih g4)
    intro y hy
    obtain ⟨k1, k2, _⟩ := chain_mem g4 y hy
    simp only [Chunk.overlaps, rangesOverlap, Chunk.range]
    omega

theorem chain_node {a b : Nat} {cs : List Chunk} (h : Chain a b cs) (type name : String) :
    (Chunk.mk a b type name cs).Invariant := by
  refine Chunk.Invariant.node a b type name cs ?_ (chain_pairwise h) ?_
  · intro c hc
    obtain ⟨k1, k2, _⟩ := chain_mem h c hc
    exact ⟨k1, k2⟩
  · intro c hc
    exact (chain_mem h c hc).2.2

/-! ## The decoding engine: steps that only move forward -/

theorem advances_pure {α : Type} (a : α) : Advances 0 (pure a : Decode α) := by
  intro c hc
  exact ⟨rfl, rfl, rfl, hc.2, Nat.le_refl _, [], by simp [pure], Nat.le_refl _⟩

theorem advances_failWith {α : Type} (kind : ErrorKind) : Advances 0 (failWith kind : Decode α) := by
  intro c hc
  exact ⟨rfl, rfl, rfl, hc.2, Nat.le_refl _, [], by simp [failWith], Nat.le_refl _⟩

theorem advances_remaining : Advances 0 remaining := by
  intro c hc
  exact ⟨rfl, rfl, rfl, hc.2, Nat.le_refl _, [], by simp [remaining], Nat.le_refl _⟩

theorem advances_mono {α : Type} {w w2 : Nat} {d : Decode α} (h : Advances w d) (hw : w ≤ w2) :
    Advances w2 d := by
  intro c hc
  obtain ⟨h1, h2, h3, h4, h5, h6⟩ := h c hc
  exact ⟨h1, h2, h3, h4, by omega, h6⟩

theorem decode_bind_apply {α β : Type} (d : Decode α) (f : α → Decode β) (c : Ctx) :
    (d >>= f) c =
      match d c with
      | (c1, .ok a) => f a c1
      | (c1, .error e) => (c1, .error e) := rfl

theorem advances_bind {α β : Type} {w1 w2 : Nat} {d : Decode α} {f : α → Decode β}
    (hd : Advances w1 d) (hf : ∀ a, Advances w2 (f a)) : Advances (w1 + w2) (d >>= f) := by
  intro c hc
  obtain ⟨h1, h2, h3, h4, h5, new, h6, h7⟩ := hd c hc
  rw [decode_bind_apply]
  rcases hdc : d c with ⟨c1, r⟩
  rw [hdc] at h1 h2 h3 h4 h5 h6 h7
  simp only at h1 h2 h3 h4 h5 h6 h7
  cases r with
  | error e =>
    dsimp only
    exact ⟨h1, h2, h3, h4, by omega, new, h6, h7⟩
  | ok a =>
    have hc1 : c1.stream.Ok := ⟨by rw [h2]; exact Nat.le_trans hc.1 (chain_le h7), by rw [h3]; exact h4⟩
    obtain ⟨g1, g2, g3, g4, g5, new2, g6, g7⟩ := hf a c1 hc1
    dsimp only
    refine ⟨by rw [g1, h1], by rw [g2, h2], by rw [g3, h3],
      by rw [← h3]; exact g4, by omega, new ++ new2, ?_, ?_⟩
    · rw [g6, h6, List.append_assoc]
    · exact chain_append h7 g7

theorem advances_readUint (width : Nat) (endianness : Endianness) :
    Advances width (readUint width endianness) := by
  intro c hc
  unfold readUint Stream.readBytes
  by_cases h : c.stream.pos + width ≤ c.stream.hi
  · rw [if_pos h]
    dsimp only
    exact ⟨rfl, rfl, rfl, h, Nat.le_refl _, [], by simp, by simp [Chain]⟩
  · rw [if_neg h]
    dsimp only
    exact ⟨rfl, rfl, rfl, hc.2, by omega, [], by simp, by simp [Chain]⟩

theorem advances_withChild {α : Type} {w : Nat} {body : Decode α} (type name : String)
    (h : Advances w body) : Advances w (withChild type name body) := by
  intro c hc
  obtain ⟨h1, h2, h3, h4, h5, new, h6, h7⟩ := h { stream := c.stream, children := [] } hc
  unfold withChild
  rcases hb : body { stream := c.stream, children := [] } with ⟨c1, r⟩
  rw [hb] at h1 h2 h3 h4 h5 h6 h7
  simp only at h1 h2 h3 h4 h5 h6 h7
  simp only [List.nil_append] at h6
  refine ⟨h1, h2, h3, h4, h5, [Chunk.mk c.stream.pos c1.stream.pos type name c1.children], rfl, ?_⟩
  rw [h6]
  exact ⟨Nat.le_refl _, chain_le h7, chain_node h7 type name, Nat.le_refl _⟩

theorem advances_sized {α : Type} {w : Nat} {body : Decode α} (length : Nat)
    (h : Advances w body) : Advances length (sized length body) := by
  intro c hc
  unfold sized Stream.openSubStream Stream.position
  have hlo : c.stream.lo + (c.stream.pos - c.stream.lo) = c.stream.pos := by
    have := hc.1; omega
  by_cases hb : c.stream.lo + (c.stream.pos - c.stream.lo) + length ≤ c.stream.hi
  · rw [if_pos hb]
    dsimp only
    rw [hlo] at hb ⊢
    have hsub : (Stream.mk c.stream.bytes c.stream.pos (c.stream.pos + length) c.stream.pos).Ok :=
      ⟨Nat.le_refl _, by simp⟩
    obtain ⟨h1, h2, h3, h4, h5, new, h6, h7⟩ :=
      h { stream := ⟨c.stream.bytes, c.stream.pos, c.stream.pos + length, c.stream.pos⟩,
          children := c.children } hsub
    rcases hbody : body
      { stream := ⟨c.stream.bytes, c.stream.pos, c.stream.pos + length, c.stream.pos⟩,
        children := c.children } with ⟨c1, r⟩
    rw [hbody] at h1 h2 h3 h4 h5 h6 h7
    simp only at h1 h2 h3 h4 h5 h6 h7
    dsimp only
    exact ⟨rfl, rfl, rfl, hb, Nat.le_refl _, new, h6, chain_widen h7 h4⟩
  · rw [if_neg hb]
    dsimp only
    exact ⟨rfl, rfl, rfl, hc.2, by omega, [], by simp, by simp [Chain]⟩

theorem advances_scalar (f : Field) : Advances f.width (scalar f) := by
  have h := advances_bind (advances_withChild f.type f.name (advances_readUint f.width f.endianness))
    (fun v => advances_pure (f.name, v))
  simpa [scalar] using h

theorem advances_readStruct (fields : List Field) :
    Advances (structWidth fields) (readStruct fields) := by
  induction fields with
  | nil => simpa [readStruct, structWidth] using advances_pure ([] : Values)
  | cons f fs ih =>
    have h := advances_bind (advances_scalar f)
      (fun v => advances_bind ih (fun vs => advances_pure (v :: vs)))
    simpa [readStruct, structWidth] using h

theorem advances_repeatN {α : Type} {w : Nat} {body : Decode α} (h : Advances w body) (n : Nat) :
    Advances (n * w) (repeatN body n) := by
  induction n with
  | zero => simpa [repeatN] using advances_pure ([] : List α)
  | succ n ih =>
    have h2 := advances_bind h (fun a => advances_bind ih (fun rest => advances_pure (a :: rest)))
    exact advances_mono h2 (Nat.le_of_eq (by ring))

theorem advances_strz (fuel : Nat) : Advances fuel (strz fuel) := by
  induction fuel with
  | zero => exact advances_failWith _
  | succ n ih =>
    have h := advances_bind (advances_readUint 1 .little)
      (fun b => show Advances n (if b = 0 then pure () else strz n) from by
        by_cases hb : b = 0
        · simp only [hb, if_true]
          exact advances_mono (advances_pure ()) (Nat.zero_le _)
        · simp only [hb, if_false]
          exact ih)
    exact advances_mono h (Nat.le_of_eq (by omega))

theorem advances_repeatEos {w : Nat} {body : Decode Unit} (h : Advances w body) (fuel : Nat) :
    Advances (fuel * w) (repeatEos body fuel) := by
  induction fuel with
  | zero => simpa [repeatEos] using advances_pure ()
  | succ n ih =>
    have h2 := advances_bind advances_remaining
      (fun r => show Advances (w + n * w) (if r = 0 then pure () else do body; repeatEos body n) from by
        by_cases hr : r = 0
        · simp only [hr, if_true]
          exact advances_mono (advances_pure ()) (Nat.zero_le _)
        · simp only [hr, if_false]
          exact advances_bind h (fun _ => ih))
    exact advances_mono h2 (Nat.le_of_eq (by ring))

/-! ## The decoding engine: the fuel of the string table is enough -/

theorem strz_consumes (k : Nat) (c : Ctx) (hok : (strz k c).2 = .ok ()) :
    c.stream.pos < (strz k c).1.stream.pos := by
  induction k generalizing c with
  | zero => simp [strz, failWith] at hok
  | succ n ih =>
    unfold strz at hok ⊢
    rw [decode_bind_apply] at hok ⊢
    unfold readUint Stream.readBytes at hok ⊢
    by_cases h : c.stream.pos + 1 ≤ c.stream.hi
    · rw [if_pos h] at hok ⊢
      dsimp only at hok ⊢
      split at hok
      · rename_i hb
        rw [if_pos hb]
        show c.stream.pos < c.stream.pos + 1
        omega
      · rename_i hb
        rw [if_neg hb]
        have := ih _ hok
        dsimp only at this
        omega
    · rw [if_neg h] at hok
      simp at hok

theorem withChild_snd {α : Type} (type name : String) (body : Decode α) (c : Ctx) :
    (withChild type name body c).2 = (body { stream := c.stream, children := [] }).2 ∧
    (withChild type name body c).1.stream = (body { stream := c.stream, children := [] }).1.stream := by
  unfold withChild
  rcases body { stream := c.stream, children := [] } with ⟨c1, r⟩
  exact ⟨rfl, rfl⟩

/-- The fuel that `decodeStrings` gives to the repetition is enough: when the
repetition over a region of at most `fuel` bytes ends well, it has reached the
end of the region. -/
theorem repeatEos_reaches_end (k fuel : Nat) (c : Ctx) (hc : c.stream.Ok)
    (hf : c.stream.remaining ≤ fuel)
    (hok : (repeatEos (withChild "strz" "string" (strz k)) fuel c).2 = .ok ()) :
    (repeatEos (withChild "strz" "string" (strz k)) fuel c).1.stream.remaining = 0 := by
  induction fuel generalizing c with
  | zero =>
    simp only [repeatEos, pure]
    omega
  | succ n ih =>
    unfold repeatEos at hok ⊢
    rw [decode_bind_apply] at hok ⊢
    unfold remaining at hok ⊢
    dsimp only at hok ⊢
    by_cases hr : c.stream.remaining = 0
    · rw [if_pos hr]
      exact hr
    · rw [if_neg hr] at hok ⊢
      rw [decode_bind_apply] at hok ⊢
      have hA := advances_withChild "strz" "string" (advances_strz k) c hc
      obtain ⟨h2, h1⟩ := withChild_snd "strz" "string" (strz k) c
      have hS := strz_consumes k { stream := c.stream, children := [] }
      generalize withChild "strz" "string" (strz k) c = w at hok hA h1 h2 ⊢
      obtain ⟨c1, r⟩ := w
      obtain ⟨_, a2, a3, a4, _, _⟩ := hA
      dsimp only at hok h1 h2 a2 a3 a4 ⊢
      cases r with
      | error e => cases hok
      | ok u =>
        have hcons := hS h2.symm
        rw [← h1] at hcons
        dsimp only at hcons hok ⊢
        refine ih c1 ⟨by rw [a2]; exact Nat.le_trans hc.1 (Nat.le_of_lt hcons),
          by rw [a3]; exact a4⟩ ?_ hok
        simp only [Stream.remaining] at hf hr ⊢
        omega

/-- The fuel that `decodeStrings` gives to a string is enough: with more fuel
than bytes left in the region, one more unit of fuel changes nothing. -/
theorem strz_fuel (k : Nat) (c : Ctx) (hk : c.stream.remaining < k) :
    strz (k + 1) c = strz k c := by
  induction k generalizing c with
  | zero => omega
  | succ n ih =>
    rw [strz, strz]
    rw [decode_bind_apply, decode_bind_apply]
    unfold readUint Stream.readBytes
    by_cases h : c.stream.pos + 1 ≤ c.stream.hi
    · rw [if_pos h]
      dsimp only
      split
      · rfl
      · refine ih _ ?_
        simp only [Stream.remaining] at hk ⊢
        omega
    · rw [if_neg h]

/-! ## The decoding engine: what a phase leaves -/

theorem fitsRegion_nil (r : Nat × Nat) : FitsRegion r [] :=
  Or.inl rfl

theorem overlap_of_within {a b r : Nat × Nat} (ha : rangeWithin a r) (h : rangesOverlap a b) :
    rangesOverlap r b := by
  simp only [rangesOverlap, rangeWithin] at *
  omega

theorem overlap_symm {a b : Nat × Nat} (h : rangesOverlap a b) : rangesOverlap b a := by
  simp only [rangesOverlap] at *
  omega

theorem fits_mem {regions : List (Nat × Nat)} {ls : List (List Chunk)}
    (h : List.Forall₂ FitsRegion regions ls) :
    ∀ c ∈ ls.flatten, c.Invariant ∧ ∃ r ∈ regions, rangeWithin c.range r := by
  induction h with
  | nil => intro c hc; simp at hc
  | cons hf _ ih =>
    intro c hc
    rw [List.flatten_cons, List.mem_append] at hc
    rcases hc with hc | hc
    · rcases hf with rfl | ⟨d, rfl, hd, hw⟩
      · cases hc
      · rw [List.mem_singleton] at hc
        subst hc
        exact ⟨hd, _, List.mem_cons_self _ _, hw⟩
    · obtain ⟨h1, r, hr, hw⟩ := ih c hc
      exact ⟨h1, r, List.mem_cons_of_mem _ hr, hw⟩

theorem fits_pairwise {regions : List (Nat × Nat)} {ls : List (List Chunk)}
    (h : List.Forall₂ FitsRegion regions ls)
    (hd : regions.Pairwise fun a b => ¬ rangesOverlap a b) :
    ls.flatten.Pairwise fun x y => ¬ x.overlaps y := by
  induction h with
  | nil => simp
  | @cons r l rs ls hf hrest ih =>
    rw [List.pairwise_cons] at hd
    rw [List.flatten_cons, List.pairwise_append]
    refine ⟨?_, ih hd.2, ?_⟩
    · rcases hf with rfl | ⟨d, rfl, _, _⟩
      · exact List.Pairwise.nil
      · exact List.pairwise_singleton _ _
    · intro x hx y hy
      rcases hf with rfl | ⟨d, rfl, _, hw⟩
      · cases hx
      · rw [List.mem_singleton] at hx
        subst hx
        obtain ⟨_, r2, hr2, hw2⟩ := fits_mem hrest y hy
        intro hov
        exact hd.1 r2 hr2 (overlap_symm (overlap_of_within hw2 (overlap_symm
          (overlap_of_within hw hov))))

theorem fits_seek_withChild {α : Type} {w : Nat} {body : Decode α} (type name : String)
    (h : Advances w body) (offset : Nat) (s : Stream) :
    FitsRegion (s.lo + offset, s.lo + offset + w)
      ((seek offset >>= fun _ => withChild type name body) { stream := s, children := [] }).1.children := by
  rw [decode_bind_apply]
  unfold seek Stream.seek
  by_cases hb : s.lo + offset ≤ s.hi
  · simp only [if_pos hb]
    have hok : (Stream.mk s.bytes s.lo s.hi (s.lo + offset)).Ok := ⟨Nat.le_add_right _ _, hb⟩
    obtain ⟨h1, h2, h3, h4, h5, new, h6, h7⟩ :=
      h { stream := ⟨s.bytes, s.lo, s.hi, s.lo + offset⟩, children := [] } hok
    unfold withChild
    rcases hbody : body { stream := ⟨s.bytes, s.lo, s.hi, s.lo + offset⟩, children := [] }
      with ⟨c1, r⟩
    rw [hbody] at h1 h2 h3 h4 h5 h6 h7
    simp only [List.nil_append] at h1 h2 h3 h4 h5 h6 h7
    right
    refine ⟨_, rfl, ?_, ?_⟩
    · rw [h6]; exact chain_node h7 type name
    · exact ⟨Nat.le_refl _, h5⟩
  · simp only [if_neg hb]
    exact Or.inl rfl

theorem field_bind_apply {β : Type} (vs : Values) (name : String) (f : Nat → Decode β) (c : Ctx) :
    (vs.field name >>= f) c =
      match vs.lookup name with
      | some v => f v c
      | none => (c, .error ⟨.MalformedField, c.stream.pos⟩) := by
  rw [decode_bind_apply]
  unfold Values.field
  cases vs.lookup name <;> rfl

theorem fits_decodeTable (type name entryType : String) (fields : List Field)
    (offset count size : Nat) (s : Stream) :
    FitsRegion (s.lo + offset, s.lo + offset + count * size)
      (decodeTable type name entryType fields offset count size
        { stream := s, children := [] }).1.children :=
  fits_seek_withChild type name
    (advances_repeatN (advances_withChild entryType "entry"
      (advances_sized size (advances_readStruct fields))) count) offset s

theorem fits_decodeHeader (layout : Layout) (s : Stream) (hs : s.pos = s.lo) (hok : s.Ok) :
    FitsRegion (s.lo, s.lo + structWidth layout.header)
      (decodeHeader layout { stream := s, children := [] }).1.children := by
  obtain ⟨h1, h2, h3, h4, h5, new, h6, h7⟩ :=
    advances_withChild "elf_header" "header" (advances_readStruct layout.header)
      { stream := s, children := [] } hok
  simp only [List.nil_append] at h6
  cases new with
  | nil => exact Or.inl h6
  | cons c cs =>
    have hw : ∃ c1, (decodeHeader layout { stream := s, children := [] }).1.children = [c1] := by
      unfold decodeHeader withChild
      exact ⟨_, rfl⟩
    obtain ⟨c1, hc1⟩ := hw
    have hcs : c1 = c ∧ cs = [] := by
      unfold decodeHeader at hc1
      rw [hc1] at h6
      simpa using h6
    obtain ⟨rfl, rfl⟩ := hcs
    right
    refine ⟨c1, hc1, h7.2.2.1, ?_⟩
    have hle := chain_le h7.2.2.2
    have h7a := h7.1
    dsimp only at h5 hle h7a
    simp only [rangeWithin, Chunk.range]
    rw [← hs]
    exact ⟨h7a, by omega⟩

theorem fits_decodeProgramHeaders (layout : Layout) (header : Values) (s : Stream)
    (offset count size : Nat) (h1 : header.lookup "phoff" = some offset)
    (h2 : header.lookup "phnum" = some count) (h3 : header.lookup "phentsize" = some size) :
    FitsRegion (s.lo + offset, s.lo + offset + count * size)
      (decodeProgramHeaders layout header { stream := s, children := [] }).1.children := by
  unfold decodeProgramHeaders
  rw [field_bind_apply, h1]
  dsimp only
  rw [field_bind_apply, h2]
  dsimp only
  rw [field_bind_apply, h3]
  exact fits_decodeTable _ _ _ _ _ _ _ _

theorem fits_decodeSectionHeaders (layout : Layout) (header : Values) (s : Stream)
    (offset count size : Nat) (h1 : header.lookup "shoff" = some offset)
    (h2 : header.lookup "shnum" = some count) (h3 : header.lookup "shentsize" = some size) :
    FitsRegion (s.lo + offset, s.lo + offset + count * size)
      (decodeSectionHeaders layout header { stream := s, children := [] }).1.children := by
  unfold decodeSectionHeaders
  rw [field_bind_apply, h1]
  dsimp only
  rw [field_bind_apply, h2]
  dsimp only
  rw [field_bind_apply, h3]
  exact fits_decodeTable _ _ _ _ _ _ _ _

theorem fits_decodeStrings (header : Values) (sections : List Values) (s : Stream)
    (index offset size : Nat) (entry : Values) (h1 : header.lookup "shstrndx" = some index)
    (h2 : sections.get? index = some entry) (h3 : entry.lookup "offset" = some offset)
    (h4 : entry.lookup "size" = some size) :
    FitsRegion (s.lo + offset, s.lo + offset + size)
      (decodeStrings header sections { stream := s, children := [] }).1.children := by
  unfold decodeStrings
  rw [field_bind_apply, h1]
  dsimp only
  rw [h2]
  dsimp only
  rw [field_bind_apply, h3]
  dsimp only
  rw [field_bind_apply, h4]
  exact fits_seek_withChild "string_table" "strings"
    (advances_sized size (advances_repeatEos
      (advances_withChild "strz" "string" (advances_strz (size + 1))) size)) offset s

/-! ## The decoding engine: the store -/

theorem attach_attach (st : ChunkStore) (blob parent : ObjectHandle) (l1 l2 : List Chunk) :
    (st.attach blob parent l1).attach blob parent l2 = st.attach blob parent (l1 ++ l2) := by
  simp [ChunkStore.attach, List.append_assoc]

theorem attach_nil (st : ChunkStore) (blob parent : ObjectHandle) :
    st.attach blob parent [] = st := by
  simp [ChunkStore.attach]

theorem get_attach (st : ChunkStore) (blob parent : ObjectHandle) (l : List Chunk)
    (h : ObjectHandle) (i : Nat) (hi : h.target = some i) (hlt : i < st.objects.length) :
    (st.attach blob parent l).get h = st.get h := by
  simp only [ChunkStore.get, ChunkStore.attach, hi, List.get?_eq_getElem?]
  exact List.getElem?_append_left hlt

theorem get_some_lt (st : ChunkStore) (h : ObjectHandle) (o : StoredObject)
    (hget : st.get h = some o) : ∃ i, h.target = some i ∧ i < st.objects.length := by
  unfold ChunkStore.get at hget
  cases ht : h.target with
  | none => rw [ht] at hget; cases hget
  | some i =>
    rw [ht] at hget
    refine ⟨i, rfl, ?_⟩
    by_contra hge
    dsimp only at hget
    rw [List.get?_eq_none.mpr (Nat.le_of_not_lt hge)] at hget
    cases hget

theorem attach_invariant (st : ChunkStore) (blob parent : ObjectHandle)
    (regions : List (Nat × Nat)) (ls : List (List Chunk))
    (hinv : st.Invariant) (hclosed : st.Closed)
    (hfit : List.Forall₂ FitsRegion regions ls)
    (hdis : regions.Pairwise fun a b => ¬ rangesOverlap a b)
    (hparent : parent.target = none ∨
      ∃ pb pp pt, st.get parent = some (.chunk pb pp pt) ∧
        ∀ r ∈ regions, rangeWithin r pt.range ∧ ∀ c ∈ pt.children, ¬ rangesOverlap c.range r)
    (hsib : ∀ t, StoredObject.chunk blob parent t ∈ st.objects →
      ∀ r ∈ regions, ¬ rangesOverlap t.range r) :
    (st.attach blob parent ls.flatten).Invariant := by
  obtain ⟨hin1, hin2, hin3⟩ := hinv
  have hmem := fits_mem hfit
  refine ⟨?_, ?_, ?_⟩
  · intro b p t ht
    simp only [ChunkStore.attach, List.mem_append, List.mem_map] at ht
    rcases ht with ht | ⟨c, hc, heq⟩
    · exact hin1 b p t ht
    · simp only [StoredObject.chunk.injEq] at heq
      obtain ⟨_, _, rfl⟩ := heq
      exact (hmem c hc).1
  · intro b p t ht pb pp pt hget
    simp only [ChunkStore.attach, List.mem_append, List.mem_map] at ht
    rcases ht with ht | ⟨c, hc, heq⟩
    · obtain ⟨i, hi, _⟩ := get_some_lt _ _ _ hget
      have hlt := hclosed b p t ht i hi
      rw [get_attach st blob parent _ p i hi hlt] at hget
      exact hin2 b p t ht pb pp pt hget
    · simp only [StoredObject.chunk.injEq] at heq
      obtain ⟨rfl, rfl, rfl⟩ := heq
      rcases hparent with hnone | ⟨qb, qp, qt, hq, hreg⟩
      · simp [ChunkStore.get, hnone] at hget
      · obtain ⟨i, hi, hlt⟩ := get_some_lt _ _ _ hq
        rw [get_attach st blob parent _ parent i hi hlt, hq] at hget
        simp only [Option.some.injEq, StoredObject.chunk.injEq] at hget
        obtain ⟨rfl, rfl, rfl⟩ := hget
        obtain ⟨_, r, hr, hw⟩ := hmem c hc
        obtain ⟨hr1, hr2⟩ := hreg r hr
        refine ⟨?_, ?_⟩
        · simp only [rangeWithin] at *
          omega
        · intro ch hcc hov
          exact hr2 ch hcc (overlap_symm (overlap_of_within hw (overlap_symm hov)))
  · simp only [ChunkStore.attach]
    rw [List.pairwise_append]
    refine ⟨hin3, ?_, ?_⟩
    · rw [List.pairwise_map]
      refine (fits_pairwise hfit hdis).imp ?_
      intro x y hxy b p t u hx hy
      simp only [StoredObject.chunk.injEq] at hx hy
      obtain ⟨_, _, rfl⟩ := hx
      obtain ⟨_, _, rfl⟩ := hy
      exact hxy
    · intro x hx y hy b p t u hxe hye
      simp only [List.mem_map] at hy
      obtain ⟨c, hc, heq⟩ := hy
      subst hxe
      rw [hye] at heq
      simp only [StoredObject.chunk.injEq] at heq
      obtain ⟨rfl, rfl, rfl⟩ := heq
      obtain ⟨_, r, hr, hw⟩ := hmem c hc
      intro hov
      exact hsib t hx r hr (overlap_symm (overlap_of_within hw (overlap_symm hov)))

theorem run_bind_pure {α β : Type} (k : kstream) (d : Decode α) (g : α → β) (st : ChunkStore) :
    k.run (d >>= fun a => pure (g a)) st =
      match d { stream := k.stream, children := [] } with
      | (c, .ok a) => .normal (st.attach k.blob k.parent_chunk c.children) (g a)
      | (c, .error f) =>
        .thrown (st.attach k.blob k.parent_chunk c.children) (.std_exception f.what) := by
  unfold kstream.run
  rw [decode_bind_apply]
  rcases d { stream := k.stream, children := [] } with ⟨c, r⟩
  cases r <;> rfl

theorem run_state {α β : Type} (k : kstream) (d : Decode α) (g : α → β) (st : ChunkStore) :
    (k.run (d >>= fun a => pure (g a)) st).state =
      st.attach k.blob k.parent_chunk (d { stream := k.stream, children := [] }).1.children := by
  rw [run_bind_pure]
  rcases d { stream := k.stream, children := [] } with ⟨c, r⟩
  cases r <;> rfl

theorem run_normal {α β : Type} (k : kstream) (d : Decode α) (g : α → β) (st s : ChunkStore)
    (b : β) (h : k.run (d >>= fun a => pure (g a)) st = .normal s b) :
    s = st.attach k.blob k.parent_chunk (d { stream := k.stream, children := [] }).1.children ∧
    ∃ a, (d { stream := k.stream, children := [] }).2 = .ok a ∧ b = g a := by
  rw [run_bind_pure] at h
  rcases hd : d { stream := k.stream, children := [] } with ⟨c, r⟩
  rw [hd] at h
  cases r with
  | error e => cases h
  | ok a =>
    simp only [Outcome.normal.injEq] at h
    exact ⟨h.1.symm, a, rfl, h.2.symm⟩

theorem run_thrown {α β : Type} (k : kstream) (d : Decode α) (g : α → β) (st s : ChunkStore)
    (e : Thrown) (h : k.run (d >>= fun a => pure (g a)) st = .thrown s e) :
    s = st.attach k.blob k.parent_chunk (d { stream := k.stream, children := [] }).1.children := by
  have := run_state k d g st
  rw [h] at this
  exact this

theorem kstream_new_normal (blob : ObjectHandle) (start : Nat) (parent_chunk : ObjectHandle)
    (st : ChunkStore) (bytes : List Nat) (hget : st.get blob = some (.blob bytes))
    (hstart : start ≤ bytes.length) :
    kstream.new blob start parent_chunk st =
      .normal st ⟨⟨bytes, start, bytes.length, start⟩, blob, parent_chunk⟩ := by
  simp only [kstream.new, hget, if_pos hstart]

theorem kstream_new_shape (blob : ObjectHandle) (start : Nat) (parent_chunk : ObjectHandle)
    (st : ChunkStore) :
    (∃ e, kstream.new blob start parent_chunk st = .thrown st e ∧ e.isStd = true) ∨
    (∃ k, kstream.new blob start parent_chunk st = .normal st k ∧ k.blob = blob ∧
      k.parent_chunk = parent_chunk) := by
  unfold kstream.new
  split
  · split
    · exact Or.inr ⟨_, rfl, rfl, rfl⟩
    · exact Or.inl ⟨_, rfl, rfl⟩
  · exact Or.inl ⟨_, rfl, rfl⟩

theorem decodeHeader_children (layout : Layout) (s : Stream) :
    ∃ hdr, (decodeHeader layout { stream := s, children := [] }).1.children = [hdr] ∧
      hdr.start = s.pos := by
  unfold decodeHeader withChild
  exact ⟨_, rfl, rfl⟩

/-- Whatever the input, the engine leaves the store as it was but for the
subtrees of the blob that it attached under the parent chunk it was given (as
roots when that is the empty handle); when the stream opens, the first of them
is the header chunk. -/
theorem engine_store (layout : Layout) (blob : ObjectHandle) (start : Nat)
    (parent_chunk : ObjectHandle) (m : Machine ChunkStore kstream elf.elf_t) :
    ∃ new, (ElfParser.parse (engine layout) blob start parent_chunk m).state.store =
        m.store.attach blob parent_chunk new ∧
      ∀ s0 k, kstream.new blob start parent_chunk m.store = .normal s0 k →
        ∃ tail, new = (decodeHeader layout { stream := k.stream, children := [] }).1.children ++
          tail := by
  rw [parse_state, tryBody_unfold]
  dsimp only [engine]
  rcases kstream_new_shape blob start parent_chunk m.store with ⟨e, hk, _⟩ | ⟨k, hk, hb, hp⟩
  · rw [hk]
    refine ⟨[], ?_, ?_⟩
    · dsimp only [Outcome.state]
      rw [attach_nil]
    · intro s0 k h
      cases h
  · rw [hk]
    dsimp only
    have hinj : ∀ s0 k2, Outcome.normal m.store k = Outcome.normal s0 k2 → k2 = k := by
      intro s0 k2 h
      simp only [Outcome.normal.injEq] at h
      exact h.2.symm
    cases h0 : elf.elf_t.new layout k m.store with
    | thrown s e =>
      have hs0 := run_thrown _ _ _ _ _ _ h0
      rw [hb, hp] at hs0
      refine ⟨_, hs0, ?_⟩
      intro s0 k2 h
      rw [hinj s0 k2 h]
      exact ⟨[], (List.append_nil _).symm⟩
    | normal s1 e1 =>
      obtain ⟨hs1, a, _, he1⟩ := run_normal _ _ _ _ _ _ h0
      rw [hb, hp] at hs1
      subst he1
      dsimp only
      cases h1 : elf.elf_t.program_headers layout ⟨k, a, [], []⟩ s1 with
      | thrown s e =>
        have hs2 := run_thrown _ _ _ _ _ _ h1
        dsimp only at hs2
        rw [hb, hp, hs1, attach_attach] at hs2
        refine ⟨_, hs2, ?_⟩
        intro s0 k2 h
        rw [hinj s0 k2 h]
        exact ⟨_, rfl⟩
      | normal s2 e2 =>
        obtain ⟨hs2, a2, _, he2⟩ := run_normal _ _ _ _ _ _ h1
        dsimp only at hs2 he2
        rw [hb, hp, hs1, attach_attach] at hs2
        subst he2
        dsimp only
        cases h2 : elf.elf_t.section_headers layout ⟨k, a, a2, []⟩ s2 with
        | thrown s e =>
          have hs3 := run_thrown _ _ _ _ _ _ h2
          dsimp only at hs3
          rw [hb, hp, hs2, attach_attach, List.append_assoc] at hs3
          refine ⟨_, hs3, ?_⟩
          intro s0 k2 h
          rw [hinj s0 k2 h]
          exact ⟨_, rfl⟩
        | normal s3 e3 =>
          obtain ⟨hs3, a3, _, he3⟩ := run_normal _ _ _ _ _ _ h2
          dsimp only at hs3 he3
          rw [hb, hp, hs2, attach_attach, List.append_assoc] at hs3
          subst he3
          dsimp only
          have hs4 : (elf.elf_t.strings ⟨k, a, a2, a3⟩ s3).state = _ := run_state _ _ _ _
          dsimp only at hs4
          rw [hb, hp] at hs4
          cases h3 : elf.elf_t.strings ⟨k, a, a2, a3⟩ s3 with
          | thrown s e =>
            rw [h3] at hs4
            dsimp only [Outcome.state] at hs4 ⊢
            rw [hs4, hs3, attach_attach, List.append_assoc]
            refine ⟨_, rfl, ?_⟩
            intro s0 k2 h
            rw [hinj s0 k2 h]
            exact ⟨_, rfl⟩
          | normal s4 e4 =>
            rw [h3] at hs4
            dsimp only [Outcome.state] at hs4 ⊢
            rw [hs4, hs3, attach_attach, List.append_assoc]
            refine ⟨_, rfl, ?_⟩
            intro s0 k2 h
            rw [hinj s0 k2 h]
            exact ⟨_, rfl⟩

theorem elfRegions_some (layout : Layout) (s : Stream) (regions : List (Nat × Nat))
    (h : elfRegions layout s = some regions) :
    ∃ header sections phoff phnum phentsize shoff shnum shentsize shstrndx entry stroff strsize,
      (decodeHeader layout { stream := s, children := [] }).2 = .ok header ∧
      (decodeSectionHeaders layout header { stream := s, children := [] }).2 = .ok sections ∧
      header.lookup "phoff" = some phoff ∧ header.lookup "phnum" = some phnum ∧
      header.lookup "phentsize" = some phentsize ∧ header.lookup "shoff" = some shoff ∧
      header.lookup "shnum" = some shnum ∧ header.lookup "shentsize" = some shentsize ∧
      header.lookup "shstrndx" = some shstrndx ∧ sections.get? shstrndx = some entry ∧
      entry.lookup "offset" = some stroff ∧ entry.lookup "size" = some strsize ∧
      regions = [(s.lo, s.lo + structWidth layout.header),
        (s.lo + phoff, s.lo + phoff + phnum * phentsize),
        (s.lo + shoff, s.lo + shoff + shnum * shentsize),
        (s.lo + stroff, s.lo + stroff + strsize)] := by
  unfold elfRegions at h
  split at h
  · cases h
  · rename_i header hhdr
    split at h
    · cases h
    · rename_i sections hsec
      split at h
      · rename_i phoff phnum phentsize shoff shnum shentsize shstrndx h1 h2 h3 h4 h5 h6 h7
        split at h
        · cases h
        · rename_i entry hentry
          split at h
          · rename_i stroff strsize h8 h9
            simp only [Option.some.injEq] at h
            exact ⟨header, sections, phoff, phnum, phentsize, shoff, shnum, shentsize, shstrndx,
              entry, stroff, strsize, hhdr, hsec, h1, h2, h3, h4, h5, h6, h7, hentry, h8, h9,
              h.symm⟩
          · cases h
      · cases h

theorem demo_header :
    (decodeHeader demoLayout ⟨⟨demoBlob, 0, demoBlob.length, 0⟩, []⟩).2 =
      .ok [("magic", 2135247942), ("phoff", 11), ("phentsize", 2), ("phnum", 4), ("shoff", 32),
        ("shentsize", 3), ("shnum", 2), ("shstrndx", 0)] := by
  simp [decodeHeader, withChild, readStruct, scalar, readUint, Stream.readBytes, uintOfBytes,
    demoLayout, demoBlob, bind, Decode.bind, pure]

theorem demo_sections :
    (decodeSectionHeaders demoLayout
      [("magic", 2135247942), ("phoff", 11), ("phentsize", 2), ("phnum", 4), ("shoff", 32),
        ("shentsize", 3), ("shnum", 2), ("shstrndx", 0)]
      ⟨⟨demoBlob, 0, demoBlob.length, 0⟩, []⟩).2 =
      .ok [[("name", 0), ("offset", 19), ("size", 13)], [("name", 1), ("offset", 19), ("size", 13)]] := by
  simp [decodeSectionHeaders, decodeTable, seek, Stream.seek, repeatN,
    sized, Stream.openSubStream, Stream.position, Values.field, List.lookup,
    withChild, readStruct, scalar, readUint, Stream.readBytes, uintOfBytes, demoLayout,
    demoBlob, bind, Decode.bind, pure]

theorem demo_regions :
    elfRegions demoLayout ⟨demoBlob, 0, demoBlob.length, 0⟩ =
      some [(0, 11), (11, 19), (32, 38), (19, 32)] := by
  unfold elfRegions
  rw [demo_header]
  dsimp only
  rw [demo_sections]
  simp [List.lookup, structWidth, demoLayout]

/-- The scenario of §8 on the engine: after the blob and the root chunk, the
store holds one header chunk with its eight fields, the program header table
with four entries, the section header table with two, and the string table
with three strings. -/
theorem demo_scenario :
    ((ElfParser.parse (engine demoLayout) ⟨some 0⟩ 0 ⟨some 1⟩
      (Machine.fresh demoStore)).state.store.objects.map StoredObject.summary) =
      [none, some (0, 38, 0), some (0, 11, 8), some (11, 19, 4), some (32, 38, 2),
        some (19, 32, 3)] := by
  rw [parse_state, tryBody_unfold]
  simp [engine, kstream.new, elf.elf_t.new, elf.elf_t.program_headers, elf.elf_t.section_headers,
    elf.elf_t.strings, kstream.run, ChunkStore.get, ChunkStore.attach, Machine.fresh, demoStore,
    decodeHeader, decodeProgramHeaders, decodeSectionHeaders, decodeStrings, decodeTable, seek,
    Stream.seek, repeatN, repeatEos, strz, remaining, Stream.remaining,
    sized, Stream.openSubStream, Stream.position, Values.field, List.lookup,
    withChild, readStruct, scalar, readUint, Stream.readBytes, uintOfBytes, demoLayout,
    demoBlob, bind, Decode.bind, pure, Outcome.state, StoredObject.summary, Chunk.start,
    Chunk.stop, Chunk.children, failWith]

/-! ## C7 -/

/-- C7: for every well-formed input of the ELF-style format, on a store that
satisfies the invariant and holds the parents its chunks name, the store in
which `parse` ends satisfies the containment and non-overlap invariant: in
every subtree each child's range lies within its parent's range and no two
siblings overlap, and the subtrees attached under the given parent lie within
it and overlap neither one another nor its other children. -/
theorem elf_chunk_tree_invariant (layout : Layout) (blob : ObjectHandle) (start : Nat)
    (parent_chunk : ObjectHandle) (m : Machine ChunkStore kstream elf.elf_t)
    (hinv : m.store.Invariant) (hclosed : m.store.Closed)
    (hwf : WellFormed layout m.store blob start parent_chunk) :
    (ElfParser.parse (engine layout) blob start parent_chunk m).state.store.Invariant := by
  obtain ⟨bytes, regions, hget, hreg, hstart, _, hdis, hparent, hsib⟩ := hwf
  obtain ⟨header, sections, phoff, phnum, phentsize, shoff, shnum, shentsize, shstrndx, entry,
    stroff, strsize, hhdr, hsec, hphoff, hphnum, hphentsize, hshoff, hshnum, hshentsize,
    hshstrndx, hentry, hstroff, hstrsize, hregions⟩ := elfRegions_some _ _ _ hreg
  subst hregions
  have hs : (Stream.mk bytes start bytes.length start).Ok := ⟨Nat.le_refl _, hstart⟩
  have f0 := fits_decodeHeader layout ⟨bytes, start, bytes.length, start⟩ rfl hs
  have f1 := fits_decodeProgramHeaders layout header ⟨bytes, start, bytes.length, start⟩
    phoff phnum phentsize hphoff hphnum hphentsize
  have f2 := fits_decodeSectionHeaders layout header ⟨bytes, start, bytes.length, start⟩
    shoff shnum shentsize hshoff hshnum hshentsize
  have f3 := fits_decodeStrings header sections ⟨bytes, start, bytes.length, start⟩
    shstrndx stroff strsize entry hshstrndx hentry hstroff hstrsize
  have key : ∀ l0 l1 l2 l3, FitsRegion _ l0 → FitsRegion _ l1 → FitsRegion _ l2 →
      FitsRegion _ l3 →
      (m.store.attach blob parent_chunk (l0 ++ (l1 ++ (l2 ++ (l3 ++ []))))).Invariant :=
    fun l0 l1 l2 l3 g0 g1 g2 g3 =>
      attach_invariant m.store blob parent_chunk _ [l0, l1, l2, l3] hinv hclosed
        (List.Forall₂.cons g0 (List.Forall₂.cons g1 (List.Forall₂.cons g2
          (List.Forall₂.cons g3 List.Forall₂.nil)))) hdis hparent hsib
  rw [parse_state, tryBody_unfold]
  have hk : (engine layout).kstream blob start parent_chunk m.store =
      .normal m.store ⟨⟨bytes, start, bytes.length, start⟩, blob, parent_chunk⟩ := by
    simp only [engine, kstream.new, hget, if_pos hstart]
  rw [hk]
  dsimp only [engine]
  cases h0 : elf.elf_t.new layout ⟨⟨bytes, start, bytes.length, start⟩, blob, parent_chunk⟩
      m.store with
  | thrown s e =>
    have hs0 := run_thrown _ _ _ _ _ _ h0
    dsimp only [Outcome.state]
    rw [hs0]
    simpa using key _ [] [] [] f0 (fitsRegion_nil _) (fitsRegion_nil _) (fitsRegion_nil _)
  | normal s1 e1 =>
    obtain ⟨hs1, a, ha, he1⟩ := run_normal _ _ _ _ _ _ h0
    dsimp only at ha he1 hs1
    rw [hhdr] at ha
    simp only [Except.ok.injEq] at ha
    subst ha
    subst he1
    dsimp only
    cases h1 : elf.elf_t.program_headers layout
        ⟨⟨⟨bytes, start, bytes.length, start⟩, blob, parent_chunk⟩, header, [], []⟩ s1 with
    | thrown s e =>
      have hs2 := run_thrown _ _ _ _ _ _ h1
      dsimp only at hs2
      dsimp only [Outcome.state]
      rw [hs2, hs1, attach_attach]
      simpa using key _ _ [] [] f0 f1 (fitsRegion_nil _) (fitsRegion_nil _)
    | normal s2 e2 =>
      obtain ⟨hs2, a, ha, he2⟩ := run_normal _ _ _ _ _ _ h1
      dsimp only at ha he2 hs2
      subst he2
      dsimp only
      cases h2 : elf.elf_t.section_headers layout
          ⟨⟨⟨bytes, start, bytes.length, start⟩, blob, parent_chunk⟩, header, a, []⟩ s2 with
      | thrown s e =>
        have hs3 := run_thrown _ _ _ _ _ _ h2
        dsimp only at hs3
        dsimp only [Outcome.state]
        rw [hs3, hs2, hs1, attach_attach, attach_attach]
        simpa using key _ _ _ [] f0 f1 f2 (fitsRegion_nil _)
      | normal s3 e3 =>
        obtain ⟨hs3, a3, ha3, he3⟩ := run_normal _ _ _ _ _ _ h2
        dsimp only at ha3 he3 hs3
        rw [hsec] at ha3
        simp only [Except.ok.injEq] at ha3
        subst ha3
        subst he3
        dsimp only
        have hs4 : (elf.elf_t.strings
            ⟨⟨⟨bytes, start, bytes.length, start⟩, blob, parent_chunk⟩, header, a, sections⟩
            s3).state = _ := run_state _ _ _ _
        dsimp only at hs4
        have hfin := key _ _ _ _ f0 f1 f2 f3
        simp only [List.append_nil] at hfin
        cases h3 : elf.elf_t.strings
            ⟨⟨⟨bytes, start, bytes.length, start⟩, blob, parent_chunk⟩, header, a, sections⟩
            s3 with
        | thrown s e =>
          rw [h3] at hs4
          dsimp only [Outcome.state] at hs4 ⊢
          rw [hs4, hs3, hs2, hs1, attach_attach, attach_attach, attach_attach]
          simpa only [List.append_assoc] using hfin
        | normal s4 e4 =>
          rw [h3] at hs4
          dsimp only [Outcome.state] at hs4 ⊢
          rw [hs4, hs3, hs2, hs1, attach_attach, attach_attach, attach_attach]
          simpa only [List.append_assoc] using hfin

/-- C7 on the scenario of §8, decoded under the root chunk of the blob. -/
theorem elf_chunk_tree_invariant_witness :
    (ElfParser.parse (engine demoLayout) ⟨some 0⟩ 0 ⟨some 1⟩
      (Machine.fresh demoStore)).state.store.Invariant :=
  elf_chunk_tree_invariant demoLayout ⟨some 0⟩ 0 ⟨some 1⟩ (Machine.fresh demoStore)
    (by
      refine ⟨?_, ?_, ?_⟩
      · intro b p t ht
        simp only [Machine.fresh, demoStore, List.mem_cons, StoredObject.chunk.injEq,
          List.mem_singleton, List.not_mem_nil, or_false, false_or, reduceCtorEq] at ht
        obtain ⟨_, _, rfl⟩ := ht
        exact Chunk.Invariant.node 0 38 "blob" "file" [] (by simp) List.Pairwise.nil (by simp)
      · intro b p t ht pb pp pt hget
        simp only [Machine.fresh, demoStore, List.mem_cons, StoredObject.chunk.injEq,
          List.mem_singleton, List.not_mem_nil, or_false, false_or, reduceCtorEq] at ht
        obtain ⟨_, rfl, _⟩ := ht
        simp [ChunkStore.get, ObjectHandle.none] at hget
      · simp [Machine.fresh, demoStore])
    (by
      intro b p t ht i hi
      simp only [Machine.fresh, demoStore, List.mem_cons, StoredObject.chunk.injEq,
        List.mem_singleton, List.not_mem_nil, or_false, false_or, reduceCtorEq] at ht
      obtain ⟨_, rfl, _⟩ := ht
      simp [ObjectHandle.none] at hi)
    ⟨demoBlob, [(0, 11), (11, 19), (32, 38), (19, 32)], rfl, demo_regions, by decide, by decide,
      by decide,
      Or.inr ⟨⟨some 0⟩, ObjectHandle.none, .mk 0 38 "blob" "file" [], rfl, by decide⟩,
      by
        intro t ht
        simp [Machine.fresh, demoStore, ObjectHandle.none] at ht⟩

/-! ## C6 -/

/-- C8: `parse` opens exactly one stream, over exactly the caller's blob, start
offset and parent chunk, constructs the decoder over the stream that this call
returned and runs the three accessors on that decoder; these calls are really
made, each on the store the previous one left, and the store `parse` ends with
is the one the last of them left.  With the decoding engine of the
specification as the callees, what `parse` adds to the store are subtrees of
that blob attached under that parent chunk (roots when it is the empty handle),
the header chunk at the start offset first. -/
theorem stream_from_arguments_attached_under_parent {σ κ ε : Type} (c : Collaborators σ κ ε)
    (layout : Layout) (blob : ObjectHandle) (start : Nat) (parent_chunk : ObjectHandle)
    (m : Machine σ κ ε) (ms : Machine ChunkStore kstream elf.elf_t) :
    (∃ ok rest,
      newCalls m (ElfParser.parse c blob start parent_chunk m) =
        ⟨.kstream blob start parent_chunk, ok⟩ :: rest ∧
      (∀ ev ∈ rest, ∀ b s p, ev.call ≠ .kstream b s p) ∧
      (∀ ev ∈ rest, ∀ k, ev.call = .elf_t k →
        ∃ s0, c.kstream blob start parent_chunk m.store = .normal s0 k) ∧
      (∀ ev ∈ rest, ∀ d, ev.call = .program_headers d →
        ∃ s0 k s1, c.kstream blob start parent_chunk m.store = .normal s0 k ∧
          c.elf_t k s0 = .normal s1 d) ∧
      (∀ ev ∈ rest, ∀ d, ev.call = .section_headers d →
        ∃ s0 k s1 d1 s2, c.kstream blob start parent_chunk m.store = .normal s0 k ∧
          c.elf_t k s0 = .normal s1 d1 ∧ c.program_headers d1 s1 = .normal s2 d) ∧
      (∀ ev ∈ rest, ∀ d, ev.call = .strings d →
        ∃ s0 k s1 d1 s2 d2 s3, c.kstream blob start parent_chunk m.store = .normal s0 k ∧
          c.elf_t k s0 = .normal s1 d1 ∧ c.program_headers d1 s1 = .normal s2 d2 ∧
          c.section_headers d2 s2 = .normal s3 d)) ∧
    ((∀ s e, c.kstream blob start parent_chunk m.store = .thrown s e →
        (ElfParser.parse c blob start parent_chunk m).state.store = s) ∧
      (∀ s0 k, c.kstream blob start parent_chunk m.store = .normal s0 k →
        (∀ s e, c.elf_t k s0 = .thrown s e →
          (ElfParser.parse c blob start parent_chunk m).state.store = s) ∧
        (∀ s1 d1, c.elf_t k s0 = .normal s1 d1 →
          (∀ s e, c.program_headers d1 s1 = .thrown s e →
            (ElfParser.parse c blob start parent_chunk m).state.store = s) ∧
          (∀ s2 d2, c.program_headers d1 s1 = .normal s2 d2 →
            (∀ s e, c.section_headers d2 s2 = .thrown s e →
              (ElfParser.parse c blob start parent_chunk m).state.store = s) ∧
            (∀ s3 d3, c.section_headers d2 s2 = .normal s3 d3 →
              (ElfParser.parse c blob start parent_chunk m).state.store =
                (c.strings d3 s3).state))))) ∧
    (∃ new,
      (ElfParser.parse (engine layout) blob start parent_chunk ms).state.store =
        ms.store.attach blob parent_chunk new ∧
      ∀ bytes, ms.store.get blob = some (.blob bytes) → start ≤ bytes.length →
        ∃ hdr rest, new = hdr :: rest ∧ hdr.start = start) := by
  refine ⟨calls_of_parse c blob start parent_chunk m, ?_, ?_⟩
  · rw [parse_state, tryBody_unfold]
    refine ⟨?_, ?_⟩
    · intro s e h0
      simp [h0, Outcome.state]
    · intro s0 k h0
      refine ⟨?_, ?_⟩
      · intro s e h1
        simp [h0, h1, Outcome.state]
      · intro s1 d1 h1
        refine ⟨?_, ?_⟩
        · intro s e h2
          simp [h0, h1, h2, Outcome.state]
        · intro s2 d2 h2
          refine ⟨?_, ?_⟩
          · intro s e h3
            simp [h0, h1, h2, h3, Outcome.state]
          · intro s3 d3 h3
            simp only [h0, h1, h2, h3]
            cases c.strings d3 s3 <;> rfl
  · obtain ⟨new, hnew, hhead⟩ := engine_store layout blob start parent_chunk ms
    refine ⟨new, hnew, ?_⟩
    intro bytes hget hstart
    obtain ⟨tail, htail⟩ := hhead _ _ (kstream_new_normal blob start parent_chunk ms.store bytes
      hget hstart)
    obtain ⟨hdr, hchildren, hstartEq⟩ :=
      decodeHeader_children layout ⟨bytes, start, bytes.length, start⟩
    rw [hchildren] at htail
    exact ⟨hdr, tail, htail, hstartEq⟩

/-- C8 on the scenario of §8, decoded under the root chunk of the blob: what is
added is attached under that chunk, the header chunk at offset 0 first. -/
theorem stream_from_arguments_attached_under_parent_witness :
    ∃ new,
      (ElfParser.parse (engine demoLayout) ⟨some 0⟩ 0 ⟨some 1⟩
        (Machine.fresh demoStore)).state.store =
        (Machine.fresh demoStore : Machine ChunkStore kstream elf.elf_t).store.attach
          ⟨some 0⟩ ⟨some 1⟩ new ∧
      ∃ hdr rest, new = hdr :: rest ∧ hdr.start = 0 := by
  obtain ⟨new, h1, h2⟩ := (stream_from_arguments_attached_under_parent
    (scripted ⟨[], none⟩ ⟨[], none⟩ ⟨[], none⟩ ⟨[], none⟩ ⟨[], none⟩) demoLayout
    ⟨some 0⟩ 0 ⟨some 1⟩ (Machine.fresh []) (Machine.fresh demoStore)).2.2
  exact ⟨new, h1, h2 demoBlob rfl (by decide)⟩

end veles.kaitai
